import Mathlib

/-!
Verification development for the tnlplatinum title-matching scripts.

The Python sources are embedded shallowly:

* `scripts/cross_reference_films.py` — `normalize_title`, `calculate_similarity`,
  `find_matches`;
* `scripts/matching_algorithm.py` — `clean_title`, `extract_episode_info`,
  `calculate_match_score`, `find_best_match`, `match_videos_to_json`;
* `scripts/json_updater.py` — the in-memory merge loop of `apply_matches_to_file`;
* `scripts/apply_video_url_updates.py` — `apply_updates`.

Strings are modelled as `List Char` (Python `str` is a sequence of code points);
floats are modelled as `ℚ` (all constants involved are exactly representable,
and every comparison settled below is strict enough that the float/rational gap
is irrelevant).  Python regular-expression calls are translated into explicit
scanning functions; the `$`-before-final-newline subtlety of Python's `$` anchor
is modelled as plain end-of-string.  Library routines the scripts call
(`difflib.SequenceMatcher.ratio`, `fuzzywuzzy.fuzz.*`) are embedded from the
library algorithms (Ratcliff/Obershelp matching-block decomposition; the
`autojunk` heuristic, which only changes behaviour on inputs of length ≥ 200,
is not modelled).  File I/O, backups and logging are outside the embedding.
-/

/-- Whitespace predicate modelling Python's `str.strip()` / regex `\s`
(ASCII whitespace plus the non-breaking and ideographic spaces occurring in
this data set). -/
def pyIsSpace (c : Char) : Bool :=
  c = ' ' || c = '\t' || c = '\n' || c = '\r' || c = '\x0b' || c = '\x0c' ||
  c = ' ' || c = '　'

/-- Left-strip whitespace, as in Python `str.lstrip()`. -/
def lstripWs (l : List Char) : List Char := l.dropWhile pyIsSpace

/-- Right-strip whitespace, as in Python `str.rstrip()`. -/
def rstripWs (l : List Char) : List Char := (l.reverse.dropWhile pyIsSpace).reverse

/-- Python `str.strip()` on code-point lists. -/
def pystripL (l : List Char) : List Char := rstripWs (lstripWs l)

/-- Lower-casing a code-point list (Python `str.lower()`; CJK characters are
fixed points, as in Python). -/
def toLowerL (l : List Char) : List Char := l.map Char.toLower

/-- Auxiliary for `collapseWs`: the flag records whether we are inside a
whitespace run that has already emitted its single space. -/
def collapseWsAux : Bool → List Char → List Char
  | _, [] => []
  | inRun, c :: rest =>
    if pyIsSpace c then
      (if inRun then [] else [' ']) ++ collapseWsAux true rest
    else c :: collapseWsAux false rest

/-- `re.sub(r'\s+', ' ', s)`: every maximal whitespace run becomes one space. -/
def collapseWs (l : List Char) : List Char := collapseWsAux false l

/-- The character set of `str.strip('《》[]()｜|：:')` in `normalize_title`. -/
def stripSetChars : List Char := "《》[]()｜|：:".data

/-- Strip leading characters belonging to `cs` (Python `str.strip(chars)`,
left half). -/
def lstripSet (cs l : List Char) : List Char := l.dropWhile (fun c => cs.contains c)

/-- Strip trailing characters belonging to `cs` (Python `str.strip(chars)`,
right half). -/
def rstripSet (cs l : List Char) : List Char :=
  (l.reverse.dropWhile (fun c => cs.contains c)).reverse

/-- Python `str.strip(chars)`. -/
def stripChars (cs l : List Char) : List Char := rstripSet cs (lstripSet cs l)

/-- Does `l` start with `pat` (character-by-character)? -/
def startsWithL : List Char → List Char → Bool
  | _, [] => true
  | [], _ :: _ => false
  | c :: cs, p :: ps => c = p && startsWithL cs ps

/-- Case-insensitive `startsWithL` (both sides compared lower-cased). -/
def startsWithCIL : List Char → List Char → Bool
  | _, [] => true
  | [], _ :: _ => false
  | c :: cs, p :: ps => c.toLower = p.toLower && startsWithCIL cs ps

/-- Index of the first occurrence of `pat` as a contiguous substring of `l`
(the scan order of `re.search` for a literal pattern). -/
def findSubIdx (pat : List Char) : List Char → Option Nat
  | [] => if pat = [] then some 0 else none
  | c :: rest =>
    if startsWithL (c :: rest) pat then some 0
    else (findSubIdx pat rest).map (· + 1)

/-- Case-insensitive variant of `findSubIdx`. -/
def findSubIdxCI (pat : List Char) : List Char → Option Nat
  | [] => if pat = [] then some 0 else none
  | c :: rest =>
    if startsWithCIL (c :: rest) pat then some 0
    else (findSubIdxCI pat rest).map (· + 1)

/-- Python's substring test `pat in hay`. -/
def containsSub (hay pat : List Char) : Bool := (findSubIdx pat hay).isSome

/-- Auxiliary scan carrying the running index. -/
def findIdxFromAux (target : Char) : List Char → Nat → Option Nat
  | [], _ => none
  | c :: rest, i => if c = target then some i else findIdxFromAux target rest (i + 1)

/-- Index of the first occurrence of `target` in `l` at position `≥ start`. -/
def findCharFrom (target : Char) (start : Nat) (l : List Char) : Option Nat :=
  findIdxFromAux target (l.drop start) start

/-- The half-open slice `l[p:j]` of Python. -/
def sliceL (p j : Nat) (l : List Char) : List Char := (l.drop p).take (j - p)

/-- `re.search(label + '《(.+?)》', l)` returning group 1: the leftmost
occurrence of the literal `label ++ '《'`, then the lazy group runs to the
first `'》'` that leaves the group non-empty.  (If the leftmost occurrence has
no admissible closing bracket, no later occurrence has one either, so the
leftmost occurrence decides.) -/
def extractWrapped (label l : List Char) : Option (List Char) :=
  match findSubIdx (label ++ ['《']) l with
  | none => none
  | some s =>
    match findCharFrom '》' (s + label.length + 1 + 1) l with
    | none => none
    | some j => some (sliceL (s + label.length + 1) j l)

/-- `re.search('試玩毛[^《]*《(.+?)》', l)` returning group 1: after the
literal `試玩毛`, the greedy `[^《]*` runs to the first `'《'`, then the lazy
group runs to the first admissible `'》'`. -/
def extractShiwanmao (l : List Char) : Option (List Char) :=
  match findSubIdx "試玩毛".data l with
  | none => none
  | some s =>
    match findCharFrom '《' (s + 3) l with
    | none => none
    | some g =>
      match findCharFrom '》' (g + 2) l with
      | none => none
      | some j => some (sliceL (g + 1) j l)

/-- The ordered wrapper-pattern cascade of `normalize_title`
(`patterns_to_extract`); the first pattern that matches wins. -/
def extractCore (l : List Char) : Option (List Char) :=
  match extractWrapped "試映劇場".data l with
  | some g => some g
  | none =>
    match extractWrapped "試音片".data l with
    | some g => some g
    | none =>
      match extractWrapped "試乜都得".data l with
      | some g => some g
      | none =>
        match extractShiwanmao l with
        | some g => some g
        | none => extractWrapped [] l

/-- Keep the text before the first occurrence of `pat`
(`re.split(pat, l)[0]` for a literal pattern). -/
def cutBeforeSub (pat l : List Char) : List Char :=
  match findSubIdx pat l with
  | some i => l.take i
  | none => l

/-- Case-insensitive `cutBeforeSub`. -/
def cutBeforeSubCI (pat l : List Char) : List Char :=
  match findSubIdxCI pat l with
  | some i => l.take i
  | none => l

/-- Character predicate for the `re.split(r'[｜\|]', ...)` delimiter class. -/
def notPipe (c : Char) : Bool := !(c = '｜' || c = '|')

/-- `normalize_title` from `scripts/cross_reference_films.py` on code-point
lists: strip, wrapper-pattern extraction, pipe / `- YouTube` truncation,
whitespace collapse, decorative-character strip, final strip. -/
def normalize_titleL (t : List Char) : List Char :=
  if t = [] then []
  else
    let n0 := pystripL t
    let n1 := (extractCore n0).getD n0
    let n2 := n1.takeWhile notPipe
    let n3 := cutBeforeSub "- YouTube".data n2
    let n4 := cutBeforeSubCI "- youtube".data n3
    let n5 := collapseWs n4
    let n6 := stripChars stripSetChars n5
    pystripL n6

/-- `normalize_title` on `String`. -/
def normalize_title (s : String) : String := ⟨normalize_titleL s.data⟩

/-! ### difflib.SequenceMatcher (Ratcliff/Obershelp), used by
`calculate_similarity` and by fuzzywuzzy -/

/-- Length of the common run of `a` from index `i` and `b` from index `j`,
capped at `bound`. -/
def commonRun : Nat → List Char → List Char → Nat → Nat → Nat
  | 0, _, _, _, _ => 0
  | n + 1, a, b, i, j =>
    match a[i]?, b[j]? with
    | some x, some y => if x = y then commonRun n a b (i + 1) (j + 1) + 1 else 0
    | _, _ => 0

/-- All candidate maximal common runs inside the window
`a[alo:ahi] × b[blo:bhi]`, in the scan order (`i` ascending, then `j`
ascending) of `SequenceMatcher.find_longest_match`. -/
def flmCands (a b : List Char) (alo ahi blo bhi : Nat) : List (Nat × Nat × Nat) :=
  (List.range' alo (ahi - alo)).flatMap (fun i =>
    (List.range' blo (bhi - blo)).filterMap (fun j =>
      let k := commonRun (min (ahi - i) (bhi - j)) a b i j
      if k = 0 then none else some (i, j, k)))

/-- First maximum of the candidate list: keep the current best unless the new
size is strictly larger — exactly the update rule of `find_longest_match`,
which therefore returns the longest block with minimal `i`, then minimal `j`. -/
def flmBest : List (Nat × Nat × Nat) → Option (Nat × Nat × Nat)
  | [] => none
  | c :: cs => some (cs.foldl (fun best d => if best.2.2 < d.2.2 then d else best) c)

/-- `SequenceMatcher.find_longest_match` on the window; with `isjunk = None`
and autojunk inactive the junk-extension loops are no-ops. -/
def flm (a b : List Char) (alo ahi blo bhi : Nat) : Option (Nat × Nat × Nat) :=
  flmBest (flmCands a b alo ahi blo bhi)

/-- Invariant satisfied by every block `find_longest_match` can return. -/
def flmP (alo ahi blo bhi : Nat) (t : Nat × Nat × Nat) : Prop :=
  0 < t.2.2 ∧ alo ≤ t.1 ∧ t.1 + t.2.2 ≤ ahi ∧ blo ≤ t.2.1 ∧ t.2.1 + t.2.2 ≤ bhi

theorem commonRun_le (n : Nat) (a b : List Char) (i j : Nat) :
    commonRun n a b i j ≤ n := by
  induction n generalizing i j with
  | zero => simp [commonRun]
  | succ n ih =>
    unfold commonRun
    match a[i]?, b[j]? with
    | some x, some y =>
      by_cases h : x = y
      · simpa [h] using Nat.succ_le_succ (ih (i + 1) (j + 1))
      · simp [h]
    | some _, none => simp
    | none, some _ => simp
    | none, none => simp

theorem flmBest_mem {l : List (Nat × Nat × Nat)} {t : Nat × Nat × Nat}
    (h : flmBest l = some t) : t ∈ l := by
  match l with
  | [] => simp [flmBest] at h
  | c :: cs =>
    simp only [flmBest, Option.some.injEq] at h
    subst h
    have aux : ∀ (cs' : List (Nat × Nat × Nat)) (acc : Nat × Nat × Nat),
        acc ∈ c :: cs →
        (∀ x ∈ cs', x ∈ c :: cs) →
        cs'.foldl (fun best d => if best.2.2 < d.2.2 then d else best) acc ∈ c :: cs := by
      intro cs'
      induction cs' with
      | nil => intro acc hacc _; simpa using hacc
      | cons d ds ih =>
        intro acc hacc hsub
        simp only [List.foldl_cons]
        by_cases hlt : acc.2.2 < d.2.2
        · simp only [hlt, if_pos]
          exact ih d (hsub d (by simp)) (fun x hx => hsub x (by simp [hx]))
        · simp only [hlt, if_neg, not_false_iff]
          exact ih acc hacc (fun x hx => hsub x (by simp [hx]))
    exact aux cs c (by simp) (fun x hx => by simp [hx])

theorem flmCands_spec {a b : List Char} {alo ahi blo bhi : Nat}
    {t : Nat × Nat × Nat} (h : t ∈ flmCands a b alo ahi blo bhi) :
    flmP alo ahi blo bhi t := by
  simp only [flmCands, List.mem_flatMap, List.mem_filterMap] at h
  obtain ⟨i, hi, j, hj, hjt⟩ := h
  have hi' := List.mem_range'.1 hi
  have hj' := List.mem_range'.1 hj
  by_cases hk : commonRun (min (ahi - i) (bhi - j)) a b i j = 0
  · simp [hk] at hjt
  · simp only [hk, if_neg, not_false_iff, Option.some.injEq] at hjt
    subst hjt
    have hle := commonRun_le (min (ahi - i) (bhi - j)) a b i j
    have h1 : commonRun (min (ahi - i) (bhi - j)) a b i j ≤ ahi - i :=
      le_trans hle (Nat.min_le_left _ _)
    have h2 : commonRun (min (ahi - i) (bhi - j)) a b i j ≤ bhi - j :=
      le_trans hle (Nat.min_le_right _ _)
    refine ⟨Nat.pos_of_ne_zero hk, ?_, ?_, ?_, ?_⟩ <;> simp only [] <;> omega

theorem flm_spec {a b : List Char} {alo ahi blo bhi : Nat} {t : Nat × Nat × Nat}
    (h : flm a b alo ahi blo bhi = some t) : flmP alo ahi blo bhi t :=
  flmCands_spec (flmBest_mem h)

/-- `SequenceMatcher.get_matching_blocks` (without the trailing sentinel and
without the order-irrelevant final sort/merge pass): recursively split around
the longest match. -/
def matchingBlocks (a b : List Char) (alo ahi blo bhi : Nat) : List (Nat × Nat × Nat) :=
  match h : flm a b alo ahi blo bhi with
  | none => []
  | some t =>
    matchingBlocks a b alo t.1 blo t.2.1 ++
      t :: matchingBlocks a b (t.1 + t.2.2) ahi (t.2.1 + t.2.2) bhi
termination_by ahi - alo
decreasing_by
  · have hs := flm_spec h
    unfold flmP at hs
    omega
  · have hs := flm_spec h
    unfold flmP at hs
    omega

/-- Total number of matched characters (the `matches` of
`SequenceMatcher.ratio`). -/
def sumKBlocks : List (Nat × Nat × Nat) → Nat
  | [] => 0
  | t :: rest => t.2.2 + sumKBlocks rest

/-- `SequenceMatcher(None, a, b).ratio() = 2*M/(|a|+|b|)`, and `1.0` when both
strings are empty. -/
def smScore (a b : List Char) : ℚ :=
  if a.length + b.length = 0 then 1
  else ((2 * sumKBlocks (matchingBlocks a b 0 a.length 0 b.length) : ℕ) : ℚ) /
    ((a.length + b.length : ℕ) : ℚ)

/-- Python's `round` (half-to-even) composed with `int`, i.e.
`fuzzywuzzy.utils.intr`. -/
def pyRound (q : ℚ) : ℤ :=
  if q - (q.floor : ℚ) < 1 / 2 then q.floor
  else if (1 : ℚ) / 2 < q - (q.floor : ℚ) then q.floor + 1
  else if q.floor % 2 = 0 then q.floor else q.floor + 1

/-! ### fuzzywuzzy scorers used by `calculate_match_score` -/

/-- `fuzz.ratio`: `intr(100 * SequenceMatcher(None, s1, s2).ratio())`, with the
`check_empty_string` guard. -/
def fuzzRatioVal (s1 s2 : List Char) : ℤ :=
  if s1 = [] ∨ s2 = [] then 0 else pyRound (100 * smScore s1 s2)

/-- ASCII word character (`\w` after fuzzywuzzy's ASCII folding). -/
def isWordCharPy (c : Char) : Bool := c.isAlphanum || c = '_'

/-- `fuzzywuzzy.utils.full_process` with `force_ascii = True`: drop non-ASCII,
replace non-word characters with spaces, lower-case, strip. -/
def fullProcess (l : List Char) : List Char :=
  pystripL (toLowerL ((l.filter (fun c => c.toNat < 128)).map
    (fun c => if isWordCharPy c then c else ' ')))

/-- Lexicographic comparison of code-point lists (Python string `<=`). -/
def lexLeStr : List Char → List Char → Bool
  | [], _ => true
  | _ :: _, [] => false
  | c :: cs, d :: ds => if c < d then true else if d < c then false else lexLeStr cs ds

/-- Insertion step of an ascending insertion sort on strings. -/
def insertStrAsc (x : List Char) : List (List Char) → List (List Char)
  | [] => [x]
  | y :: ys => if lexLeStr x y then x :: y :: ys else y :: insertStrAsc x ys

/-- Python `sorted` on a token list (equal tokens are identical strings, so
stability is moot). -/
def sortStrsAsc : List (List Char) → List (List Char)
  | [] => []
  | x :: xs => insertStrAsc x (sortStrsAsc xs)

/-- Python `str.split()` with no argument: split on whitespace runs,
dropping empty fields; `cur` accumulates the current token reversed. -/
def splitWsAux : List Char → List Char → List (List Char)
  | [], cur => if cur = [] then [] else [cur.reverse]
  | c :: rest, cur =>
    if pyIsSpace c then
      (if cur = [] then [] else [cur.reverse]) ++ splitWsAux rest []
    else splitWsAux rest (c :: cur)

/-- Python `str.split()` with no argument. -/
def splitWs (l : List Char) : List (List Char) := splitWsAux l []

/-- `fuzzywuzzy.fuzz._process_and_sort`: full-process, tokenize, sort, rejoin. -/
def processAndSort (l : List Char) : List Char :=
  pystripL (List.intercalate [' '] (sortStrsAsc (splitWs (fullProcess l))))

/-- `fuzz.token_sort_ratio` (force_ascii, full_process defaults). -/
def fuzzTokenSortRatioVal (s1 s2 : List Char) : ℤ :=
  fuzzRatioVal (processAndSort s1) (processAndSort s2)

/-- Largest element of a rational list (`max(scores)`, `0` for the empty
list as in `max(scores) if scores else 0.0`). -/
def maxListQ : List ℚ → ℚ
  | [] => 0
  | x :: xs => xs.foldl max x

/-- The per-block window ratios of `fuzz.partial_ratio`: for each matching
block (and the trailing sentinel block), the `SequenceMatcher` ratio of the
shorter string against the same-length window of the longer string aligned at
that block (`long_start = max(j - i, 0)`, which is natural subtraction). -/
def partialWindowScores (shorter longer : List Char) : List ℚ :=
  (matchingBlocks shorter longer 0 shorter.length 0 longer.length ++
    [(shorter.length, longer.length, 0)]).map
    (fun (t : Nat × Nat × Nat) =>
      smScore shorter ((longer.drop (t.2.1 - t.1)).take shorter.length))

/-- `fuzz.partial_ratio` after the shorter/longer selection (with the
`> .995 → 100` early exit, equivalent to the max since all ratios are `≤ 1`). -/
def partialRatioCore (shorter longer : List Char) : ℤ :=
  if (partialWindowScores shorter longer).any (fun r => (199 : ℚ) / 200 < r) then 100
  else pyRound (100 * maxListQ (partialWindowScores shorter longer))

/-- `fuzz.partial_ratio`: best `SequenceMatcher` ratio of the shorter string
against the windows of the longer string; `shorter = s1` when
`len(s1) <= len(s2)`. -/
def fuzzPartialRatioVal (s1 s2 : List Char) : ℤ :=
  if s1 = [] ∨ s2 = [] then 0
  else if s1.length ≤ s2.length then partialRatioCore s1 s2
  else partialRatioCore s2 s1

/-! ### matching_algorithm.py : TitleMatcher -/

/-- Digits, for the `EP(\d+)` episode pattern. -/
def isDigitCh (c : Char) : Bool := '0' ≤ c && c ≤ '9'

/-- Try to match `EP(\d+)` (ignore-case) at the head of the list; on success
return the matched text in its original case, with the greedy digit run. -/
def epMatchAt : List Char → Option (List Char)
  | e :: p :: rest =>
    if (e = 'E' || e = 'e') && (p = 'P' || p = 'p') then
      let ds := rest.takeWhile isDigitCh
      if ds = [] then none else some (e :: p :: ds)
    else none
  | _ => none

/-- Leftmost `EP(\d+)` match (`re.search` scan). -/
def findEpMatch : List Char → Option (List Char)
  | [] => none
  | c :: rest =>
    match epMatchAt (c :: rest) with
    | some m => some m
    | none => findEpMatch rest

/-- Python `str.replace(pat, '')`: remove every non-overlapping occurrence,
scanning left to right. -/
def replaceAllSub (pat : List Char) (l : List Char) : List Char :=
  match l with
  | [] => []
  | c :: rest =>
    if h : pat ≠ [] ∧ startsWithL (c :: rest) pat = true then
      replaceAllSub pat ((c :: rest).drop pat.length)
    else
      c :: replaceAllSub pat rest
termination_by l.length
decreasing_by
  · simp only [List.length_drop, List.length_cons]
    have : pat.length ≠ 0 := fun h0 => h.1 (List.length_eq_zero.1 h0)
    omega
  · simp

/-- `TitleMatcher.extract_episode_info`: on a match, the base title is the
input with every occurrence of the matched episode text removed, stripped. -/
def extract_episode_infoL (l : List Char) : List Char × Option (List Char) :=
  match findEpMatch l with
  | some ep => (pystripL (replaceAllSub ep l), some ep)
  | none => (l, none)

/-- Scan for the leftmost pipe followed (after optional whitespace) by the
literal `試當真` — the match position of `re.sub(r'\s*[｜|]\s*試當真.*$', ...)`. -/
def findPipeShiAux : List Char → Nat → Option Nat
  | [], _ => none
  | c :: rest, i =>
    if (c = '｜' || c = '|') && startsWithL (lstripWs rest) "試當真".data then some i
    else findPipeShiAux rest (i + 1)

/-- `re.sub(r'\s*[｜|]\s*試當真.*$', '', l)`: cut at the qualifying pipe and
drop the whitespace run immediately before it (consumed by the leading `\s*`). -/
def cutPipeShi (l : List Char) : List Char :=
  match findPipeShiAux l 0 with
  | some p => rstripWs (l.take p)
  | none => l

/-- Scan for the leftmost `-` followed (after optional whitespace) by the
literal `YouTube`. -/
def findDashYTAux : List Char → Nat → Option Nat
  | [], _ => none
  | c :: rest, i =>
    if c = '-' && startsWithL (lstripWs rest) "YouTube".data then some i
    else findDashYTAux rest (i + 1)

/-- `re.sub(r'\s*-\s*YouTube.*$', '', l)`. -/
def cutDashYT (l : List Char) : List Char :=
  match findDashYTAux l 0 with
  | some p => rstripWs (l.take p)
  | none => l

/-- The trailing `[《〈]?` of the label-prefix patterns: consume one optional
opening bracket. -/
def stripOptBracket : List Char → List Char
  | c :: rest => if c = '《' || c = '〈' then rest else c :: rest
  | [] => []

/-- `re.sub(r'^\s*` ++ label ++ `\s*[《〈]?', '', l)`: if the label follows the
leading whitespace, remove whitespace, label, following whitespace and one
optional opening bracket; otherwise leave `l` unchanged. -/
def stripLabelPre (label l : List Char) : List Char :=
  if startsWithL (lstripWs l) label then
    stripOptBracket (lstripWs ((lstripWs l).drop label.length))
  else l

/-- `re.sub(r'[》〉]\s*$', '', l)`: remove one trailing closing bracket
together with the whitespace after it; no-op when the last non-whitespace
character is not a closing bracket. -/
def stripTrailBracket (l : List Char) : List Char :=
  match (rstripWs l).getLast? with
  | some b => if b = '》' || b = '〉' then (rstripWs l).dropLast else l
  | none => l

/-- `TitleMatcher.clean_title` from `scripts/matching_algorithm.py`. -/
def clean_titleL (t : List Char) : List Char :=
  if t = [] then []
  else
    let t1 := cutPipeShi t
    let t2 := cutDashYT t1
    let t3 := stripLabelPre "試映劇場".data t2
    let t4 := stripLabelPre "試音片".data t3
    let t5 := stripLabelPre "試乜都得".data t4
    let t6 := stripTrailBracket t5
    let t7 := collapseWs t6
    pystripL t7

/-- `clean_title` on `String`. -/
def clean_title (s : String) : String := ⟨clean_titleL s.data⟩

/-- The `scores` list of `TitleMatcher.calculate_match_score` (reached when no
exact match fired), in source order: substring boosts, `fuzz.ratio`,
`fuzz.token_sort_ratio`, `fuzz.partial_ratio` (each also against the full
title when truthy), and the capped episode bonus when both episode markers
match. -/
def cmsScores (clean_video clean_json clean_full : List Char) : List ℚ :=
  (if containsSub clean_video clean_json || containsSub clean_json clean_video then
    [95] else [])
  ++ (if clean_full ≠ [] ∧
        (containsSub clean_video clean_full || containsSub clean_full clean_video) then
    [95] else [])
  ++ [(fuzzRatioVal clean_video clean_json : ℚ)]
  ++ (if clean_full ≠ [] then [(fuzzRatioVal clean_video clean_full : ℚ)] else [])
  ++ [(fuzzTokenSortRatioVal clean_video clean_json : ℚ)]
  ++ (if clean_full ≠ [] then [(fuzzTokenSortRatioVal clean_video clean_full : ℚ)] else [])
  ++ [(fuzzPartialRatioVal clean_video clean_json : ℚ)]
  ++ (if clean_full ≠ [] then [(fuzzPartialRatioVal clean_video clean_full : ℚ)] else [])
  ++ (match (extract_episode_infoL clean_video).2, (extract_episode_infoL clean_json).2 with
      | some ve, some je =>
        if ve = je then
          [min ((fuzzRatioVal (extract_episode_infoL clean_video).1
            (extract_episode_infoL clean_json).1 : ℚ) + 20) 100]
        else []
      | _, _ => [])

/-- `TitleMatcher.calculate_match_score`: maximum over exact/substring/fuzzy/
token/partial/episode strategies, on the 0–100 scale. -/
def calculate_match_score (video_title json_title json_full_title : String) : ℚ :=
  if clean_titleL video_title.data = clean_titleL json_title.data ∨
      clean_titleL video_title.data = clean_titleL json_full_title.data then 100
  else
    maxListQ (cmsScores (clean_titleL video_title.data) (clean_titleL json_title.data)
      (clean_titleL json_full_title.data))

/-- A video record handed to `TitleMatcher` (`title`, `url`, `playlist`). -/
structure MVideo where
  title : String
  url : String
  playlist : String
deriving DecidableEq

/-- A JSON catalog entry as read by `TitleMatcher` (`videoUrl = ""` models an
absent/falsy field). -/
structure MEntry where
  title : String
  fullTitle : String
  videoUrl : String
deriving DecidableEq

/-- `TitleMatcher.is_playlist_appropriate` — the source returns `True`
unconditionally ("For now, return True to allow all matches"). -/
def is_playlist_appropriate (_playlist : String) (_json_entry : MEntry) : Bool := true

/-- The `score` variable of the `find_best_match` loop body: the match score
plus the playlist boost (`is_playlist_appropriate` always holds). -/
def fbmScore (video : MVideo) (entry : MEntry) : ℚ :=
  if is_playlist_appropriate video.playlist entry then
    calculate_match_score video.title entry.title entry.fullTitle + 5
  else calculate_match_score video.title entry.title entry.fullTitle

/-- One step of the `find_best_match` loop over `json_entries`. -/
def fbmStep (min_confidence : ℚ) (video : MVideo) (acc : Option MEntry × ℚ)
    (entry : MEntry) : Option MEntry × ℚ :=
  if entry.videoUrl ≠ "" ∧ video.url ≠ entry.videoUrl then acc
  else
    if acc.2 < fbmScore video entry ∧ min_confidence ≤ fbmScore video entry then
      (some entry, fbmScore video entry)
    else acc

/-- `TitleMatcher.find_best_match`. -/
def find_best_match (min_confidence : ℚ) (video : MVideo) (json_entries : List MEntry) :
    Option MEntry × ℚ :=
  json_entries.foldl (fbmStep min_confidence video) (none, 0)

/-- The match dictionary produced by `match_videos_to_json`. -/
structure MMatch where
  video : MVideo
  json_entry : MEntry
  confidence : ℚ
  video_url : String
  match_type : String
deriving DecidableEq

/-- `TitleMatcher.match_videos_to_json`. -/
def match_videos_to_json (min_confidence : ℚ) (videos : List MVideo)
    (json_entries : List MEntry) : List MMatch :=
  videos.foldr (fun v acc =>
    match find_best_match min_confidence v json_entries with
    | (some e, score) =>
      ⟨v, e, score, v.url, if 90 ≤ score then "automatic" else "fuzzy"⟩ :: acc
    | (none, _) => acc) []

/-! ### cross_reference_films.py : calculate_similarity and find_matches -/

/-- Unicode word character for Python's `re.sub(r'[^\w]', '', ...)` on `str`:
ASCII alphanumerics/underscore, and non-ASCII characters other than the CJK
punctuation and fullwidth symbols occurring in this data set (Python's full
`\w` tables are elided to this repertoire). -/
def isWordCharU (c : Char) : Bool :=
  c.isAlphanum || c = '_' ||
  (128 ≤ c.toNat && !("《》〈〉「」『』【】（）｜：；、。，！？・／－…—～　".data.contains c))

/-- `calculate_similarity` from `scripts/cross_reference_films.py` (the
`debug` parameter only prints and is dropped). -/
def calculate_similarity (str1 str2 : String) : ℚ :=
  if str1 = "" ∨ str2 = "" then 0
  else if str2 = "／" ∨ str2 = "/" ∨ str2 = "-" ∨ str2 = "" ∨ str2 = " " ∨
      (pystripL str2.data).length < 2 then 0
  else if str1 = str2 then 1
  else
    let norm1 := normalize_titleL str1.data
    let norm2 := normalize_titleL str2.data
    if norm1 = [] ∨ norm2 = [] ∨ (pystripL norm1).length < 2 ∨
        (pystripL norm2).length < 2 then 0
    else if norm1 = norm2 then 19 / 20
    else
      let low1 := toLowerL norm1
      let low2 := toLowerL norm2
      let sim0 := smScore low1 low2
      let sim1 :=
        if (containsSub low2 low1 || containsSub low1 low2) ∧
            3 ≤ min norm1.length norm2.length then max sim0 (4 / 5)
        else sim0
      let clean1 := low1.filter isWordCharU
      let clean2 := low2.filter isWordCharU
      if clean1 = clean2 ∧ 3 ≤ clean1.length then max sim1 (9 / 10)
      else if (containsSub clean2 clean1 || containsSub clean1 clean2) ∧
          3 ≤ min clean1.length clean2.length then max sim1 (17 / 20)
      else sim1

/-- A film record from `films.json` as read by `find_matches` (only the fields
the function reads). -/
structure XFilm where
  title : String
  fullTitle : String
deriving DecidableEq

/-- An entry of another data source (`ads`, `variety-shows`, `audition-films`,
`songs`), with `""` modelling absent/falsy fields. -/
structure XItem where
  title : String
  fullTitle : String
  song : String
  movie : String
  videoUrl : String
deriving DecidableEq

/-- The match dictionary built by `find_matches`. -/
structure XMatch where
  film : XFilm
  item : XItem
  source : String
  confidence : ℚ
  match_type : String
  film_title : String
  film_full_title : String
  match_title : String
  match_full_title : String
  video_url : String
deriving DecidableEq

/-- The `similarities` list of `find_matches` for one film/item pair, in
source order; a pair is only scored when both fields are truthy. -/
def simsFor (source_name : String) (film : XFilm) (item : XItem) : List (String × ℚ) :=
  (if film.title ≠ "" ∧ item.title ≠ "" then
    [("title_to_title", calculate_similarity film.title item.title)] else [])
  ++ (if film.title ≠ "" ∧ item.fullTitle ≠ "" then
    [("title_to_fullTitle", calculate_similarity film.title item.fullTitle)] else [])
  ++ (if film.fullTitle ≠ "" ∧ item.title ≠ "" then
    [("fullTitle_to_title", calculate_similarity film.fullTitle item.title)] else [])
  ++ (if film.fullTitle ≠ "" ∧ item.fullTitle ≠ "" then
    [("fullTitle_to_fullTitle", calculate_similarity film.fullTitle item.fullTitle)] else [])
  ++ (if source_name = "songs" ∧ film.title ≠ "" ∧ item.song ≠ "" then
    [("title_to_song", calculate_similarity film.title item.song)] else [])
  ++ (if source_name = "songs" ∧ film.title ≠ "" ∧ item.movie ≠ "" then
    [("title_to_movie", calculate_similarity film.title item.movie)] else [])

/-- Python `max(similarities, key=lambda x: x[1])`: the first element whose
score equals the maximum. -/
def firstMax : List (String × ℚ) → Option (String × ℚ)
  | [] => none
  | x :: xs => some (xs.foldl (fun acc y => if acc.2 < y.2 then y else acc) x)

/-- The (zero- or one-element) contribution of one pool item to a film's
`best_matches` list: items without `videoUrl` are skipped, and the best pair
score must reach `min_confidence`. -/
def candFor (source_name : String) (min_confidence : ℚ) (film : XFilm)
    (item : XItem) : List XMatch :=
  if item.videoUrl = "" then []
  else
    match firstMax (simsFor source_name film item) with
    | none => []
    | some bst =>
      if min_confidence ≤ bst.2 then
        [⟨film, item, source_name, bst.2, bst.1, film.title, film.fullTitle,
          item.title, item.fullTitle, item.videoUrl⟩]
      else []

/-- The `best_matches` list accumulated over the pool, in pool iteration
order. -/
def best_matchesFor (source_name : String) (min_confidence : ℚ) (film : XFilm) :
    List XItem → List XMatch
  | [] => []
  | item :: rest =>
    candFor source_name min_confidence film item ++
      best_matchesFor source_name min_confidence film rest

/-- Insertion step of a stable descending sort by confidence: the new element
(which precedes the already-sorted elements in the original list) passes
elements with strictly greater confidence and stops before the first element
with confidence `≤` its own — exactly Python's stable
`sort(key=confidence, reverse=True)`. -/
def insertDescR (x : XMatch) : List XMatch → List XMatch
  | [] => [x]
  | y :: ys => if x.confidence < y.confidence then y :: insertDescR x ys else x :: y :: ys

/-- Stable descending sort by confidence
(`best_matches.sort(key=lambda x: x['confidence'], reverse=True)`). -/
def sortMatchesDesc : List XMatch → List XMatch
  | [] => []
  | x :: xs => insertDescR x (sortMatchesDesc xs)

/-- `find_matches` from `scripts/cross_reference_films.py`: per film, collect
candidates over the pool, sort stably by confidence descending, keep the top
3, and concatenate over films. -/
def find_matches (films_without_url : List XFilm) (other_data : List XItem)
    (source_name : String) (min_confidence : ℚ) : List XMatch :=
  films_without_url.foldr (fun film acc =>
    (sortMatchesDesc (best_matchesFor source_name min_confidence film other_data)).take 3
      ++ acc) []

/-! ### json_updater.py : the merge loop of apply_matches_to_file -/

/-- A catalog entry as handled by `JSONUpdater` (`id`/`title` are `Option`
because Python's `.get` yields `None` when the key is missing; `videoUrl = ""`
models an absent/falsy link; `rest` carries all other key/value pairs). -/
structure UEntry where
  id : Option Int
  title : Option String
  videoUrl : String
  rest : List (String × String)
deriving DecidableEq

/-- A match consumed by `apply_matches_to_file` (`json_entry`, `video_url`,
`confidence`). -/
structure UMatch where
  json_entry : UEntry
  video_url : String
  confidence : ℚ
deriving DecidableEq

/-- `JSONUpdater.update_entry_with_video_url`: copy the entry and set
`videoUrl` (the confidence metadata lines are commented out in the source). -/
def update_entry_with_video_url (entry : UEntry) (video_url : String)
    (_confidence : ℚ) : UEntry :=
  { entry with videoUrl := video_url }

/-- The id-branch of the merge loop: find the first entry with the given id
and update it when `not existing_url or confidence > 95 or existing_url !=
video_url`; `break` after the first id hit.  Returns the new list and the
number of updates (0 or 1). -/
def update_by_id (n : Int) (video_url : String) (confidence : ℚ) :
    List UEntry → List UEntry × Nat
  | [] => ([], 0)
  | e :: rest =>
    if e.id = some n then
      if e.videoUrl = "" ∨ 95 < confidence ∨ e.videoUrl ≠ video_url then
        (update_entry_with_video_url e video_url confidence :: rest, 1)
      else (e :: rest, 0)
    else
      let r := update_by_id n video_url confidence rest
      (e :: r.1, r.2)

/-- The title-branch of the merge loop: find the first entry whose `title`
equals the match's title and update it when `not entry.get('videoUrl') or
confidence > 95`; `break` after the first title hit. -/
def update_by_title (title : String) (video_url : String) (confidence : ℚ) :
    List UEntry → List UEntry × Nat
  | [] => ([], 0)
  | e :: rest =>
    if e.title = some title then
      if e.videoUrl = "" ∨ 95 < confidence then
        (update_entry_with_video_url e video_url confidence :: rest, 1)
      else (e :: rest, 0)
    else
      let r := update_by_title title video_url confidence rest
      (e :: r.1, r.2)

/-- Processing of one match by `apply_matches_to_file`: lookup by id when the
match's `json_entry` carries one, else lookup by exact title equality. -/
def apply_one_match (data : List UEntry) (m : UMatch) : List UEntry × Nat :=
  match m.json_entry.id with
  | some n => update_by_id n m.video_url m.confidence data
  | none => update_by_title (m.json_entry.title.getD "") m.video_url m.confidence data

/-- The in-memory merge loop of `JSONUpdater.apply_matches_to_file` (backup,
load and save I/O are outside the embedding): fold the matches over the data,
accumulating `updates_made`. -/
def apply_matches_to_file (data : List UEntry) (ms : List UMatch) :
    List UEntry × Nat :=
  ms.foldl (fun st m =>
    let r := apply_one_match st.1 m
    (r.1, st.2 + r.2)) (data, 0)

/-- The entry found by the merge loop's lookup (first by id, else first by
title) — used to state merge-policy theorems. -/
def lookup_entry (data : List UEntry) (je : UEntry) : Option UEntry :=
  match je.id with
  | some n => data.find? (fun e => decide (e.id = some n))
  | none => data.find? (fun e => decide (e.title = some (je.title.getD "")))

/-! ### apply_video_url_updates.py : apply_updates -/

/-- A film record of `films.json` as handled by `apply_updates`
(`title` is `Option` because `film.get('title')` may be `None`;
`rest` carries every other key/value pair). -/
structure Film where
  title : Option String
  videoUrl : String
  rest : List (String × String)
deriving DecidableEq

/-- The inner loop of `apply_updates` for one match: update the first film
whose title equals the match's `film_title` and whose `videoUrl` is falsy,
then `break`; films already carrying a `videoUrl` are passed over and the
search continues. -/
def apply_update_step (film_title video_url : String) :
    List Film → List Film × Nat
  | [] => ([], 0)
  | f :: rest =>
    if f.title = some film_title ∧ f.videoUrl = "" then
      ({ f with videoUrl := video_url } :: rest, 1)
    else
      let r := apply_update_step film_title video_url rest
      (f :: r.1, r.2)

/-- `apply_updates` from `scripts/apply_video_url_updates.py`: filter the
matches by `confidence >= min_confidence`, then apply each in order
(file reading/writing and the backup are outside the embedding). -/
def apply_updates (films : List Film) (all_matches : List XMatch)
    (min_confidence : ℚ) : List Film × Nat :=
  (all_matches.filter (fun m => min_confidence ≤ m.confidence)).foldl
    (fun st m =>
      let r := apply_update_step m.film_title m.video_url st.1
      (r.1, st.2 + r.2)) (films, 0)

/-! ## Lemmas about the merge loop of `apply_matches_to_file` -/

theorem apply_matches_singleton (data : List UEntry) (m : UMatch) :
    apply_matches_to_file data [m] = apply_one_match data m := by
  simp [apply_matches_to_file]

theorem update_by_id_first (n : Int) (url : String) (conf : ℚ)
    (xs ys : List UEntry) (e : UEntry)
    (hxs : ∀ x ∈ xs, x.id ≠ some n) (he : e.id = some n) :
    update_by_id n url conf (xs ++ e :: ys) =
      (xs ++ (if e.videoUrl = "" ∨ 95 < conf ∨ e.videoUrl ≠ url then
        update_entry_with_video_url e url conf else e) :: ys,
       if e.videoUrl = "" ∨ 95 < conf ∨ e.videoUrl ≠ url then 1 else 0) := by
  induction xs with
  | nil =>
    simp only [List.nil_append, update_by_id, he, if_pos]
    by_cases hc : e.videoUrl = "" ∨ 95 < conf ∨ e.videoUrl ≠ url
    · simp [hc]
    · simp [hc]
  | cons x xs ih =>
    have hx : x.id ≠ some n := hxs x (by simp)
    have ih' := ih (fun y hy => hxs y (by simp [hy]))
    simp only [List.cons_append, update_by_id, hx, if_neg, not_false_iff,
      List.append_eq, ih']

theorem update_by_title_first (t url : String) (conf : ℚ)
    (xs ys : List UEntry) (e : UEntry)
    (hxs : ∀ x ∈ xs, x.title ≠ some t) (he : e.title = some t) :
    update_by_title t url conf (xs ++ e :: ys) =
      (xs ++ (if e.videoUrl = "" ∨ 95 < conf then
        update_entry_with_video_url e url conf else e) :: ys,
       if e.videoUrl = "" ∨ 95 < conf then 1 else 0) := by
  induction xs with
  | nil =>
    simp only [List.nil_append, update_by_title, he, if_pos]
    by_cases hc : e.videoUrl = "" ∨ 95 < conf
    · simp [hc]
    · simp [hc]
  | cons x xs ih =>
    have hx : x.title ≠ some t := hxs x (by simp)
    have ih' := ih (fun y hy => hxs y (by simp [hy]))
    simp only [List.cons_append, update_by_title, hx, if_neg, not_false_iff,
      List.append_eq, ih']

theorem update_by_title_all_skip (t url : String) (conf : ℚ) (l : List UEntry)
    (h95 : conf ≤ 95) (hall : ∀ e ∈ l, e.videoUrl ≠ "") :
    update_by_title t url conf l = (l, 0) := by
  induction l with
  | nil => simp [update_by_title]
  | cons e rest ih =>
    have hne : e.videoUrl ≠ "" := hall e (by simp)
    have hrest := ih (fun x hx => hall x (by simp [hx]))
    by_cases ht : e.title = some t
    · have hc : ¬(e.videoUrl = "" ∨ 95 < conf) := by
        push_neg
        exact ⟨hne, h95⟩
      simp [update_by_title, ht, hc]
    · simp [update_by_title, ht, hrest]

theorem update_by_title_preserves (t url : String) (conf : ℚ)
    (h95 : conf ≤ 95) :
    ∀ (l : List UEntry) (i : Nat) (e : UEntry),
      l.get? i = some e → e.videoUrl ≠ "" →
      ((update_by_title t url conf l).1).get? i = some e := by
  intro l
  induction l with
  | nil => intro i e hi; simp at hi
  | cons f rest ih =>
    intro i e hi hne
    by_cases ht : f.title = some t
    · by_cases hc : f.videoUrl = "" ∨ 95 < conf
      · simp only [update_by_title, ht, if_pos, hc]
        match i with
        | 0 =>
          simp only [List.get?] at hi ⊢
          -- the head was updated, but then it had an empty videoUrl
          rcases hc with hc | hc
          · exfalso
            apply hne
            injection hi with hfe
            rw [← hfe]
            exact hc
          · exact absurd hc (by exact not_lt.2 h95)
        | Nat.succ j =>
          simp only [List.get?] at hi ⊢
          exact hi
      · simp only [update_by_title, ht, if_neg hc]
        exact hi
    · simp only [update_by_title, ht, if_neg, not_false_iff]
      match i with
      | 0 => simpa using hi
      | Nat.succ j =>
        simp only [List.get?] at hi ⊢
        exact ih j e hi hne

/-- C1 (counterexample): the claim fails on the id-lookup branch.  A record
with `id = 1` and existing link `"u1"`, matched against URL `"u2" ≠ "u1"` with
confidence `50` (not exceeding the override threshold 95), is nevertheless
replaced — the loop condition `not existing_url or confidence > 95 or
existing_url != video_url` applies the candidate whenever the URL differs. -/
theorem C1_counterexample :
    apply_matches_to_file [⟨some 1, some "t", "u1", []⟩]
        [⟨⟨some 1, some "t", "u1", []⟩, "u2", 50⟩] =
      ([⟨some 1, some "t", "u2", []⟩], 1) ∧
    (50 : ℚ) ≤ 95 ∧ ("u2" : String) ≠ "u1" ∧
    ([⟨some 1, some "t", "u2", []⟩] : List UEntry) ≠ [⟨some 1, some "t", "u1", []⟩] := by
  refine ⟨?_, by norm_num, by decide, by decide⟩
  decide

/-- C1 (amended): override protection holds only in the title-lookup branch of
`apply_matches_to_file` (candidates whose `json_entry` carries no id).  There,
with confidence not exceeding 95, a record that already carries an external
link is never modified: if every record carries a link the batch is a no-op
reported with zero updates, and in any data set a record with an existing link
is left unchanged at its position. -/
theorem C1_title_branch_override_protection
    (data : List UEntry) (je : UEntry) (url : String) (conf : ℚ)
    (hid : je.id = none) (h95 : conf ≤ 95) :
    ((∀ e ∈ data, e.videoUrl ≠ "") →
      apply_matches_to_file data [⟨je, url, conf⟩] = (data, 0)) ∧
    (∀ (i : Nat) (e : UEntry), data.get? i = some e → e.videoUrl ≠ "" →
      ((apply_matches_to_file data [⟨je, url, conf⟩]).1).get? i = some e) := by
  rw [apply_matches_singleton]
  unfold apply_one_match
  simp only [hid]
  constructor
  · intro hall
    exact update_by_title_all_skip _ _ _ _ h95 hall
  · intro i e hi hne
    exact update_by_title_preserves _ _ _ h95 data i e hi hne

/-- C1 (witness): concrete instance of the amended theorem — a title-located
record with existing link `"u1"` survives a confidence-90 candidate with a
different URL, and the batch reports zero updates. -/
theorem C1_witness :
    apply_matches_to_file [⟨none, some "t", "u1", []⟩]
        [⟨⟨none, some "t", "", []⟩, "u2", 90⟩] = ([⟨none, some "t", "u1", []⟩], 1 - 1) ∧
    ((apply_matches_to_file [⟨none, some "t", "u1", []⟩]
        [⟨⟨none, some "t", "", []⟩, "u2", 90⟩]).1).get? 0 = some ⟨none, some "t", "u1", []⟩ := by
  have h := C1_title_branch_override_protection
    [⟨none, some "t", "u1", []⟩] ⟨none, some "t", "", []⟩ "u2" 90 (by decide) (by norm_num)
  refine ⟨?_, h.2 0 ⟨none, some "t", "u1", []⟩ (by decide) (by decide)⟩
  have h1 := h.1 (by intro e he; simp at he; rw [he]; decide)
  simpa using h1

/-- C3 (counterexample): merge is not idempotent at every confidence.  At
confidence 100 (> 95) the second application of the identical candidate is
counted as an update again (`confidence > 95` re-fires the branch), so the
claimed `Applied`-then-`SkippedNoChange` behaviour fails; the claim's
universal quantification over confidence is false. -/
theorem C3_counterexample :
    (apply_matches_to_file
      (apply_matches_to_file [⟨some 1, some "t", "", []⟩]
        [⟨⟨some 1, some "t", "", []⟩, "u", 100⟩]).1
      [⟨⟨some 1, some "t", "", []⟩, "u", 100⟩]).2 = 1 := by
  decide

/-- C3 (amended): merge is idempotent for confidences not exceeding 95.  For a
candidate with a non-empty URL whose `json_entry` carries an id, applied to a
data set whose first record with that id has no existing link, the first
application updates that record (one update, link set to the candidate URL)
and the second application of the identical candidate is a counted-as-zero
no-op leaving the data unchanged; the record's link equals the candidate URL
after either call.  The same holds for the title-lookup branch. -/
theorem C3_merge_idempotent_le95 :
    (∀ (n : Int) (xs ys : List UEntry) (e je : UEntry) (url : String) (conf : ℚ),
      je.id = some n → (∀ x ∈ xs, x.id ≠ some n) → e.id = some n →
      e.videoUrl = "" → url ≠ "" → conf ≤ 95 →
      apply_matches_to_file (xs ++ e :: ys) [⟨je, url, conf⟩] =
        (xs ++ { e with videoUrl := url } :: ys, 1) ∧
      apply_matches_to_file (xs ++ { e with videoUrl := url } :: ys) [⟨je, url, conf⟩] =
        (xs ++ { e with videoUrl := url } :: ys, 0)) ∧
    (∀ (t : String) (xs ys : List UEntry) (e je : UEntry) (url : String) (conf : ℚ),
      je.id = none → je.title = some t → (∀ x ∈ xs, x.title ≠ some t) →
      e.title = some t → e.videoUrl = "" → url ≠ "" → conf ≤ 95 →
      apply_matches_to_file (xs ++ e :: ys) [⟨je, url, conf⟩] =
        (xs ++ { e with videoUrl := url } :: ys, 1) ∧
      apply_matches_to_file (xs ++ { e with videoUrl := url } :: ys) [⟨je, url, conf⟩] =
        (xs ++ { e with videoUrl := url } :: ys, 0)) := by
  constructor
  · intro n xs ys e je url conf hje hxs he hurl hne h95
    rw [apply_matches_singleton, apply_matches_singleton]
    unfold apply_one_match
    simp only [hje]
    constructor
    · rw [update_by_id_first n url conf xs ys e hxs he]
      simp [update_entry_with_video_url, hurl]
    · rw [update_by_id_first n url conf xs ys { e with videoUrl := url } hxs he]
      have hcond : ¬(({ e with videoUrl := url } : UEntry).videoUrl = "" ∨ 95 < conf ∨
          ({ e with videoUrl := url } : UEntry).videoUrl ≠ url) := by
        push_neg
        exact ⟨hne, h95, rfl⟩
      rw [if_neg hcond, if_neg hcond]
  · intro t xs ys e je url conf hje hjt hxs he hurl hne h95
    rw [apply_matches_singleton, apply_matches_singleton]
    unfold apply_one_match
    simp only [hje, hjt, Option.getD_some]
    constructor
    · rw [update_by_title_first t url conf xs ys e hxs he]
      simp [update_entry_with_video_url, hurl]
    · rw [update_by_title_first t url conf xs ys { e with videoUrl := url } hxs he]
      have hcond : ¬(({ e with videoUrl := url } : UEntry).videoUrl = "" ∨ 95 < conf) := by
        push_neg
        exact ⟨hne, h95⟩
      rw [if_neg hcond, if_neg hcond]

/-- C3 (witness): the amended idempotence at a concrete input — id-located
record, confidence 80 ≤ 95: first application applies, second skips. -/
theorem C3_witness :
    apply_matches_to_file [⟨some 1, some "t", "", []⟩]
        [⟨⟨some 1, some "t", "", []⟩, "u", 80⟩] = ([⟨some 1, some "t", "u", []⟩], 1) ∧
    apply_matches_to_file [⟨some 1, some "t", "u", []⟩]
        [⟨⟨some 1, some "t", "", []⟩, "u", 80⟩] = ([⟨some 1, some "t", "u", []⟩], 0) := by
  have h := C3_merge_idempotent_le95.1 1 [] [] ⟨some 1, some "t", "", []⟩
    ⟨some 1, some "t", "", []⟩ "u" 80 (by decide) (by intro x hx; simp at hx)
    (by decide) (by decide) (by decide) (by norm_num)
  simpa using h

/-- C8 (counterexample): an ambiguous title lookup is not surfaced.  With two
records of title `"t"` (and no ids) in the data, applying a candidate with
confidence 50 silently updates the first matching record and reports an
ordinary single update — the return value carries no warning-level condition
distinguishing this from an unambiguous match. -/
theorem C8_counterexample :
    apply_matches_to_file
        [⟨none, some "t", "", []⟩, ⟨none, some "t", "", []⟩]
        [⟨⟨none, some "t", "", []⟩, "u", 50⟩] =
      ([⟨none, some "t", "u", []⟩, ⟨none, some "t", "", []⟩], 1) := by
  decide

/-- C8 (amended): when a title lookup matches more than one record, the merge
loop silently updates only the first matching record in list order (subject to
its `videoUrl`/confidence condition) and leaves every later record — including
the other title duplicates — untouched; no warning-level condition is produced
(the function returns only the updated list and the update count). -/
theorem C8_first_title_match_only
    (t url : String) (conf : ℚ) (xs ys : List UEntry) (e je : UEntry)
    (hje : je.id = none) (hjt : je.title = some t)
    (hxs : ∀ x ∈ xs, x.title ≠ some t) (he : e.title = some t) :
    apply_matches_to_file (xs ++ e :: ys) [⟨je, url, conf⟩] =
      (xs ++ (if e.videoUrl = "" ∨ 95 < conf then
        update_entry_with_video_url e url conf else e) :: ys,
       if e.videoUrl = "" ∨ 95 < conf then 1 else 0) := by
  rw [apply_matches_singleton]
  unfold apply_one_match
  simp only [hje, hjt, Option.getD_some]
  exact update_by_title_first t url conf xs ys e hxs he

/-- C8 (witness): the amended theorem at the counterexample's input — the
first duplicate is updated, the second is untouched. -/
theorem C8_witness :
    apply_matches_to_file
        [⟨none, some "t", "", []⟩, ⟨none, some "t", "", []⟩]
        [⟨⟨none, some "t", "", []⟩, "u", 50⟩] =
      ([⟨none, some "t", "u", []⟩, ⟨none, some "t", "", []⟩], 2 - 1) := by
  have h := C8_first_title_match_only "t" "u" 50 [] [⟨none, some "t", "", []⟩]
    ⟨none, some "t", "", []⟩ ⟨none, some "t", "", []⟩ (by decide) (by decide)
    (by intro x hx; simp at hx) (by decide)
  simp only [List.nil_append] at h
  rw [h]
  decide

/-! ## Lemmas about `apply_updates` -/

theorem apply_update_step_count_le_one (t url : String) :
    ∀ films : List Film, (apply_update_step t url films).2 ≤ 1 := by
  intro films
  induction films with
  | nil => simp [apply_update_step]
  | cons f rest ih =>
    by_cases hc : f.title = some t ∧ f.videoUrl = ""
    · simp [apply_update_step, hc]
    · simp only [apply_update_step, hc, if_neg, not_false_iff]
      exact ih

theorem apply_update_step_preserves_nonempty (t url : String) :
    ∀ (films : List Film) (i : Nat) (f : Film),
      films.get? i = some f → f.videoUrl ≠ "" →
      ((apply_update_step t url films).1).get? i = some f := by
  intro films
  induction films with
  | nil => intro i f hi; simp at hi
  | cons g rest ih =>
    intro i f hi hne
    by_cases hc : g.title = some t ∧ g.videoUrl = ""
    · simp only [apply_update_step, hc, if_pos]
      match i with
      | 0 =>
        exfalso
        apply hne
        simp only [List.get?] at hi
        injection hi with hgf
        rw [← hgf]
        exact hc.2
      | Nat.succ j =>
        simp only [List.get?] at hi ⊢
        exact hi
    · simp only [apply_update_step, hc, if_neg, not_false_iff]
      match i with
      | 0 => simpa using hi
      | Nat.succ j =>
        simp only [List.get?] at hi ⊢
        exact ih j f hi hne

theorem apply_update_step_first_eligible (t url : String)
    (xs ys : List Film) (f : Film)
    (hxs : ∀ x ∈ xs, ¬(x.title = some t ∧ x.videoUrl = ""))
    (ht : f.title = some t) (hv : f.videoUrl = "") :
    apply_update_step t url (xs ++ f :: ys) =
      (xs ++ { f with videoUrl := url } :: ys, 1) := by
  induction xs with
  | nil => simp [apply_update_step, ht, hv]
  | cons x xs ih =>
    have hx := hxs x (by simp)
    have ih' := ih (fun y hy => hxs y (by simp [hy]))
    simp only [List.cons_append, apply_update_step, hx, if_neg, not_false_iff,
      List.append_eq, ih']

theorem apply_update_step_no_eligible (t url : String)
    (films : List Film)
    (hall : ∀ f ∈ films, ¬(f.title = some t ∧ f.videoUrl = "")) :
    apply_update_step t url films = (films, 0) := by
  induction films with
  | nil => simp [apply_update_step]
  | cons f rest ih =>
    have hf := hall f (by simp)
    have ih' := ih (fun y hy => hall y (by simp [hy]))
    simp [apply_update_step, hf, ih']

theorem apply_updates_go_preserves_nonempty (minc : ℚ) :
    ∀ (ms : List XMatch) (films : List Film) (c : Nat) (i : Nat) (f : Film),
      films.get? i = some f → f.videoUrl ≠ "" →
      ((ms.foldl (fun st m =>
        let r := apply_update_step m.film_title m.video_url st.1
        (r.1, st.2 + r.2)) ((films, c) : List Film × Nat)).1).get? i = some f := by
  intro ms
  induction ms with
  | nil => intro films c i f hi _; simpa using hi
  | cons m rest ih =>
    intro films c i f hi hne
    simp only [List.foldl_cons]
    exact ih _ _ i f (apply_update_step_preserves_nonempty _ _ films i f hi hne) hne

/-- C10: the frame conditions of `apply_updates`.  For one match application:
at most one film is updated; it is the first film in list order whose title
equals the match's film title and whose `videoUrl` is absent, and only its
`videoUrl` field is set (title and all other fields are copied); a film that
already carries a `videoUrl` is never modified; if no film is eligible the
list is returned unchanged.  Along the whole application path (which filters
matches by confidence but applies each filtered match identically,
independently of its confidence), films with an existing `videoUrl` are never
modified. -/
theorem C10_apply_updates_frame (t url : String) (films : List Film) :
    ((apply_update_step t url films).2 ≤ 1) ∧
    (∀ (i : Nat) (f : Film), films.get? i = some f → f.videoUrl ≠ "" →
      ((apply_update_step t url films).1).get? i = some f) ∧
    (∀ (xs ys : List Film) (f : Film),
      (∀ x ∈ xs, ¬(x.title = some t ∧ x.videoUrl = "")) →
      f.title = some t → f.videoUrl = "" →
      apply_update_step t url (xs ++ f :: ys) =
        (xs ++ { f with videoUrl := url } :: ys, 1)) ∧
    ((∀ f ∈ films, ¬(f.title = some t ∧ f.videoUrl = "")) →
      apply_update_step t url films = (films, 0)) ∧
    (∀ (ms : List XMatch) (minc : ℚ) (i : Nat) (f : Film),
      films.get? i = some f → f.videoUrl ≠ "" →
      ((apply_updates films ms minc).1).get? i = some f) := by
  refine ⟨apply_update_step_count_le_one t url films,
    apply_update_step_preserves_nonempty t url films,
    fun xs ys f hxs ht hv => apply_update_step_first_eligible t url xs ys f hxs ht hv,
    fun hall => apply_update_step_no_eligible t url films hall,
    fun ms minc i f hi hne => ?_⟩
  unfold apply_updates
  exact apply_updates_go_preserves_nonempty minc _ films 0 i f hi hne

/-- C10 (witness): a concrete instance — a film that already has a link
survives a full `apply_updates` run (the match would otherwise hit it), and
the step updates the first eligible film only. -/
theorem C10_witness :
    ((apply_updates [⟨some "t", "u0", []⟩, ⟨some "t", "", []⟩]
        [⟨⟨"t", ""⟩, ⟨"", "", "", "", "v"⟩, "ads", 19/20, "title_to_title",
          "t", "", "", "", "v"⟩] (9/10)).1).get? 0 = some ⟨some "t", "u0", []⟩ ∧
    apply_update_step "t" "v" [⟨some "t", "u0", []⟩, ⟨some "t", "", []⟩] =
      ([⟨some "t", "u0", []⟩, ⟨some "t", "v", []⟩], 1) := by
  have h := C10_apply_updates_frame "t" "v" [⟨some "t", "u0", []⟩, ⟨some "t", "", []⟩]
  refine ⟨h.2.2.2.2 _ (9/10) 0 ⟨some "t", "u0", []⟩ (by decide) (by decide), ?_⟩
  have h3 := h.2.2.1 [⟨some "t", "u0", []⟩] [] ⟨some "t", "", []⟩
    (by intro x hx; simp at hx; rw [hx]; decide) (by decide) (by decide)
  simpa using h3

/-! ## Lemmas about `find_best_match` and `match_videos_to_json` -/

theorem fbm_fold_no_conflict (min_confidence : ℚ) (video : MVideo) :
    ∀ (entries : List MEntry) (acc : Option MEntry × ℚ),
      (∀ e : MEntry, acc.1 = some e → e.videoUrl = "" ∨ e.videoUrl = video.url) →
      ∀ e : MEntry, (entries.foldl (fbmStep min_confidence video) acc).1 = some e →
        e.videoUrl = "" ∨ e.videoUrl = video.url := by
  intro entries
  induction entries with
  | nil => intro acc hacc e he; exact hacc e he
  | cons entry rest ih =>
    intro acc hacc e he
    refine ih (fbmStep min_confidence video acc entry) ?_ e he
    intro e' he'
    unfold fbmStep at he'
    by_cases hskip : entry.videoUrl ≠ "" ∧ video.url ≠ entry.videoUrl
    · rw [if_pos hskip] at he'
      exact hacc e' he'
    · rw [if_neg hskip] at he'
      push_neg at hskip
      by_cases hupd : acc.2 < fbmScore video entry ∧ min_confidence ≤ fbmScore video entry
      · rw [if_pos hupd] at he'
        simp only [Option.some.injEq] at he'
        subst he'
        by_cases hv : entry.videoUrl = ""
        · exact Or.inl hv
        · exact Or.inr (hskip hv).symm
      · rw [if_neg hupd] at he'
        exact hacc e' he'

theorem mvj_no_conflict (min_confidence : ℚ) (entries : List MEntry) :
    ∀ (videos : List MVideo) (m : MMatch),
      m ∈ match_videos_to_json min_confidence videos entries →
      (m.json_entry.videoUrl = "" ∨ m.json_entry.videoUrl = m.video_url) ∧
      m.video_url = m.video.url := by
  intro videos
  induction videos with
  | nil => intro m hm; simp [match_videos_to_json] at hm
  | cons v rest ih =>
    intro m hm
    unfold match_videos_to_json at hm
    simp only [List.foldr_cons] at hm
    have hrest : List.foldr (fun v acc =>
        match find_best_match min_confidence v entries with
        | (some e, score) =>
          (⟨v, e, score, v.url, if 90 ≤ score then "automatic" else "fuzzy"⟩ : MMatch) :: acc
        | (none, _) => acc) [] rest = match_videos_to_json min_confidence rest entries := rfl
    match hfb : find_best_match min_confidence v entries with
    | (some e, score) =>
      rw [hfb] at hm
      rcases List.mem_cons.1 hm with hm | hm
      · subst hm
        refine ⟨?_, rfl⟩
        have he : (find_best_match min_confidence v entries).1 = some e := by rw [hfb]
        have := fbm_fold_no_conflict min_confidence v entries (none, 0)
          (by intro e' h; simp at h) e he
        simpa using this
      · rw [hrest] at hm
        exact ih m hm
    | (none, score) =>
      rw [hfb] at hm
      rw [hrest] at hm
      exact ih m hm

theorem cms_exact_a : calculate_match_score "a" "a" "" = 100 := by decide

theorem fbm_concrete_one :
    find_best_match 70 ⟨"a", "u", ""⟩ [⟨"a", "", ""⟩] =
      (some ⟨"a", "", ""⟩, 105) := by
  unfold find_best_match
  simp only [List.foldl_cons, List.foldl_nil, fbmStep, fbmScore,
    is_playlist_appropriate, if_true, cms_exact_a]
  norm_num

theorem mvj_concrete_one :
    match_videos_to_json 70 [⟨"a", "u", ""⟩] [⟨"a", "", ""⟩] =
      [⟨⟨"a", "u", ""⟩, ⟨"a", "", ""⟩, 105, "u", "automatic"⟩] := by
  unfold match_videos_to_json
  simp only [List.foldr_cons, List.foldr_nil, fbm_concrete_one]
  norm_num

/-- C9: `find_best_match` never selects an entry whose `videoUrl` is set to a
value different from the video's own url (such entries are skipped before
scoring), and every match produced by `match_videos_to_json` proposes either a
first-time link or the identical URL the entry already carries (its
`video_url` field is the video's own url). -/
theorem C9_no_conflicting_selection :
    (∀ (min_confidence : ℚ) (video : MVideo) (entries : List MEntry) (e : MEntry),
      (find_best_match min_confidence video entries).1 = some e →
      e.videoUrl = "" ∨ e.videoUrl = video.url) ∧
    (∀ (min_confidence : ℚ) (videos : List MVideo) (entries : List MEntry)
      (m : MMatch), m ∈ match_videos_to_json min_confidence videos entries →
      (m.json_entry.videoUrl = "" ∨ m.json_entry.videoUrl = m.video_url) ∧
      m.video_url = m.video.url) := by
  constructor
  · intro minc video entries e he
    exact fbm_fold_no_conflict minc video entries (none, 0) (by intro e' h; simp at h) e he
  · intro minc videos entries m hm
    exact mvj_no_conflict minc entries videos m hm

/-- C9 (witness): a concrete instance — with one never-linked entry, the
selected best entry carries no conflicting link, and the produced match links
it to the video's own url. -/
theorem C9_witness :
    ((⟨"a", "", ""⟩ : MEntry).videoUrl = "" ∨
      (⟨"a", "", ""⟩ : MEntry).videoUrl = (⟨"a", "u", ""⟩ : MVideo).url) ∧
    (((⟨⟨"a", "u", ""⟩, ⟨"a", "", ""⟩, 105, "u", "automatic"⟩ : MMatch).json_entry.videoUrl = "" ∨
      (⟨⟨"a", "u", ""⟩, ⟨"a", "", ""⟩, 105, "u", "automatic"⟩ : MMatch).json_entry.videoUrl =
        (⟨⟨"a", "u", ""⟩, ⟨"a", "", ""⟩, 105, "u", "automatic"⟩ : MMatch).video_url) ∧
    (⟨⟨"a", "u", ""⟩, ⟨"a", "", ""⟩, 105, "u", "automatic"⟩ : MMatch).video_url =
      (⟨⟨"a", "u", ""⟩, ⟨"a", "", ""⟩, 105, "u", "automatic"⟩ : MMatch).video.url) := by
  refine ⟨?_, ?_⟩
  · exact C9_no_conflicting_selection.1 70 ⟨"a", "u", ""⟩ [⟨"a", "", ""⟩] ⟨"a", "", ""⟩
      (by rw [fbm_concrete_one])
  · exact C9_no_conflicting_selection.2 70 [⟨"a", "u", ""⟩] [⟨"a", "", ""⟩]
      ⟨⟨"a", "u", ""⟩, ⟨"a", "", ""⟩, 105, "u", "automatic"⟩
      (by rw [mvj_concrete_one]; exact List.mem_singleton.2 rfl)

/-! ## Placeholder rejection and the flagship scenario -/

theorem sim_placeholder_snd (a p : String)
    (hp : p = "／" ∨ p = "/" ∨ p = "-" ∨ p = "" ∨ p = " ") :
    calculate_similarity a p = 0 := by
  unfold calculate_similarity
  by_cases h1 : a = "" ∨ p = ""
  · rw [if_pos h1]
  · rw [if_neg h1, if_pos]
    rcases hp with h | h | h | h | h <;> subst h <;> simp

theorem sim_placeholder_fst (p a : String)
    (hdeg : normalize_titleL p.data = [] ∨ (pystripL (normalize_titleL p.data)).length < 2)
    (hstrip : (pystripL p.data).length < 2) :
    calculate_similarity p a = 0 := by
  unfold calculate_similarity
  by_cases h1 : p = "" ∨ a = ""
  · rw [if_pos h1]
  · rw [if_neg h1]
    by_cases h2 : a = "／" ∨ a = "/" ∨ a = "-" ∨ a = "" ∨ a = " " ∨
        (pystripL a.data).length < 2
    · rw [if_pos h2]
    · rw [if_neg h2]
      have hne : p ≠ a := by
        intro hpa
        exact h2 (by subst hpa; exact Or.inr (Or.inr (Or.inr (Or.inr (Or.inr hstrip)))))
      rw [if_neg hne, if_pos]
      rcases hdeg with h | h
      · exact Or.inl h
      · exact Or.inr (Or.inr (Or.inl h))

/-- C6: placeholder rejection.  For every string `a` and each placeholder in
the configured set `["／", "/", "-", "", " "]`, `calculate_similarity` returns
`0.0` with the placeholder in either argument position: as second argument the
explicit placeholder filter fires, and as first argument the degenerate-input
checks (empty input, or a normalized/stripped form shorter than 2) fire. -/
theorem C6_placeholder_zero (a : String) :
    (calculate_similarity a "／" = 0 ∧ calculate_similarity "／" a = 0) ∧
    (calculate_similarity a "/" = 0 ∧ calculate_similarity "/" a = 0) ∧
    (calculate_similarity a "-" = 0 ∧ calculate_similarity "-" a = 0) ∧
    (calculate_similarity a "" = 0 ∧ calculate_similarity "" a = 0) ∧
    (calculate_similarity a " " = 0 ∧ calculate_similarity " " a = 0) := by
  refine ⟨⟨?_, ?_⟩, ⟨?_, ?_⟩, ⟨?_, ?_⟩, ⟨?_, ?_⟩, ⟨?_, ?_⟩⟩
  · exact sim_placeholder_snd a _ (Or.inl rfl)
  · exact sim_placeholder_fst _ a (by right; decide) (by decide)
  · exact sim_placeholder_snd a _ (Or.inr (Or.inl rfl))
  · exact sim_placeholder_fst _ a (by right; decide) (by decide)
  · exact sim_placeholder_snd a _ (Or.inr (Or.inr (Or.inl rfl)))
  · exact sim_placeholder_fst _ a (by right; decide) (by decide)
  · exact sim_placeholder_snd a _ (Or.inr (Or.inr (Or.inr (Or.inl rfl))))
  · exact sim_placeholder_fst _ a (by left; decide) (by decide)
  · exact sim_placeholder_snd a _ (Or.inr (Or.inr (Or.inr (Or.inr rfl))))
  · exact sim_placeholder_fst _ a (by left; decide) (by decide)

/-- C7: the flagship scenario.  `normalize_title` applied to
`"試玩毛EP06《哈利波腎》｜試當真"` yields the core `"哈利波腎"` (the
`試玩毛[^《]*《(.+?)》` wrapper pattern strips the label, episode code and
trailing channel suffix), and `calculate_similarity` of the raw title against
the catalog title `"試玩毛EP06《哈利波腎》"` returns exactly 0.95 (both
normalize to the same core), which is at least the 0.9 the claim requires. -/
theorem C7_flagship_scenario :
    normalize_title "試玩毛EP06《哈利波腎》｜試當真" = "哈利波腎" ∧
    calculate_similarity "試玩毛EP06《哈利波腎》｜試當真" "試玩毛EP06《哈利波腎》" =
      19 / 20 ∧
    (9 : ℚ) / 10 ≤ 19 / 20 := by
  refine ⟨by decide, by rfl, by norm_num⟩

/-! ## Lemmas about `find_matches`: top-3, threshold, stable descending sort -/

theorem mem_insertDescR (x z : XMatch) :
    ∀ l, z ∈ insertDescR x l ↔ z = x ∨ z ∈ l := by
  intro l
  induction l with
  | nil => simp [insertDescR]
  | cons y ys ih =>
    rw [insertDescR]
    by_cases hlt : x.confidence < y.confidence
    · rw [if_pos hlt]
      simp only [List.mem_cons, ih]
      all_goals tauto
    · rw [if_neg hlt]
      simp only [List.mem_cons]
      all_goals tauto

theorem pairwise_insertDescR (x : XMatch) :
    ∀ l, l.Pairwise (fun a b => b.confidence ≤ a.confidence) →
      (insertDescR x l).Pairwise (fun a b => b.confidence ≤ a.confidence) := by
  intro l
  induction l with
  | nil => intro _; simp [insertDescR]
  | cons y ys ih =>
    intro hp
    rw [List.pairwise_cons] at hp
    rw [insertDescR]
    by_cases hlt : x.confidence < y.confidence
    · rw [if_pos hlt, List.pairwise_cons]
      refine ⟨?_, ih hp.2⟩
      intro z hz
      rcases (mem_insertDescR x z ys).1 hz with rfl | hz
      · exact le_of_lt hlt
      · exact hp.1 z hz
    · rw [if_neg hlt, List.pairwise_cons]
      push_neg at hlt
      refine ⟨?_, List.pairwise_cons.2 hp⟩
      intro z hz
      rcases List.mem_cons.1 hz with rfl | hz
      · exact hlt
      · exact le_trans (hp.1 z hz) hlt

theorem pairwise_sortMatchesDesc :
    ∀ l : List XMatch,
      (sortMatchesDesc l).Pairwise (fun a b => b.confidence ≤ a.confidence) := by
  intro l
  induction l with
  | nil => simp [sortMatchesDesc]
  | cons x xs ih => exact pairwise_insertDescR x (sortMatchesDesc xs) ih

theorem filter_insertDescR (q : ℚ) (x : XMatch) :
    ∀ l, (insertDescR x l).filter (fun m => decide (m.confidence = q)) =
      if x.confidence = q then
        x :: l.filter (fun m => decide (m.confidence = q))
      else l.filter (fun m => decide (m.confidence = q)) := by
  intro l
  induction l with
  | nil =>
    by_cases hx : x.confidence = q <;> simp [insertDescR, List.filter, hx]
  | cons y ys ih =>
    rw [insertDescR]
    by_cases hlt : x.confidence < y.confidence
    · rw [if_pos hlt]
      by_cases hx : x.confidence = q
      · have hy : ¬(y.confidence = q) := by
          intro h
          rw [hx, h] at hlt
          exact lt_irrefl q hlt
        simp [List.filter_cons, ih, hx, hy]
      · by_cases hy : y.confidence = q <;>
          simp [List.filter_cons, ih, hx, hy]
    · rw [if_neg hlt]
      by_cases hx : x.confidence = q <;>
        by_cases hy : y.confidence = q <;>
          simp [List.filter_cons, hx, hy]

theorem filter_sortMatchesDesc (q : ℚ) :
    ∀ l : List XMatch,
      (sortMatchesDesc l).filter (fun m => decide (m.confidence = q)) =
        l.filter (fun m => decide (m.confidence = q)) := by
  intro l
  induction l with
  | nil => rfl
  | cons x xs ih =>
    rw [sortMatchesDesc, filter_insertDescR q x (sortMatchesDesc xs), ih]
    by_cases hx : x.confidence = q <;> simp [List.filter_cons, hx]

theorem mem_candFor (source_name : String) (min_confidence : ℚ) (film : XFilm)
    (item : XItem) (m : XMatch) (hm : m ∈ candFor source_name min_confidence film item) :
    min_confidence ≤ m.confidence := by
  unfold candFor at hm
  by_cases hv : item.videoUrl = ""
  · rw [if_pos hv] at hm
    simp at hm
  · rw [if_neg hv] at hm
    cases h : firstMax (simsFor source_name film item) with
    | none =>
      rw [h] at hm
      simp at hm
    | some bst =>
      rw [h] at hm
      by_cases hc : min_confidence ≤ bst.2
      · simp only [hc, if_true, List.mem_singleton] at hm
        subst hm
        exact hc
      · simp [hc] at hm

theorem mem_best_matchesFor (source_name : String) (min_confidence : ℚ)
    (film : XFilm) :
    ∀ (pool : List XItem) (m : XMatch),
      m ∈ best_matchesFor source_name min_confidence film pool →
      min_confidence ≤ m.confidence := by
  intro pool
  induction pool with
  | nil => intro m hm; simp [best_matchesFor] at hm
  | cons item rest ih =>
    intro m hm
    rw [best_matchesFor] at hm
    rcases List.mem_append.1 hm with hm | hm
    · exact mem_candFor source_name min_confidence film item m hm
    · exact ih m hm

theorem mem_sortMatchesDesc (z : XMatch) :
    ∀ l, z ∈ sortMatchesDesc l ↔ z ∈ l := by
  intro l
  induction l with
  | nil => simp [sortMatchesDesc]
  | cons x xs ih =>
    rw [sortMatchesDesc, mem_insertDescR x z (sortMatchesDesc xs), ih, List.mem_cons]
    all_goals tauto

theorem mem_find_matches (films : List XFilm) (pool : List XItem)
    (source_name : String) (min_confidence : ℚ) (m : XMatch)
    (hm : m ∈ find_matches films pool source_name min_confidence) :
    min_confidence ≤ m.confidence := by
  induction films with
  | nil => simp [find_matches] at hm
  | cons film rest ih =>
    unfold find_matches at hm ih
    simp only [List.foldr_cons] at hm
    rcases List.mem_append.1 hm with hm | hm
    · have hm' := List.mem_of_mem_take hm
      have hm'' := (mem_sortMatchesDesc m _).1 hm'
      exact mem_best_matchesFor source_name min_confidence film pool m hm''
    · exact ih hm

/-- C4: candidate selection in `find_matches`.  The result is the
concatenation, over the films in order, of that film's sorted candidate list
truncated to the top 3; every returned candidate's confidence is at least the
configured minimum; each per-film list has length at most 3 and is ordered by
confidence descending; and the sort is stable with no secondary key — for
every confidence value, the candidates carrying it appear in exactly their
pool iteration order (the order of the unsorted `best_matches` list). -/
theorem C4_find_matches_spec :
    (∀ (films : List XFilm) (pool : List XItem) (source_name : String)
       (min_confidence : ℚ),
      find_matches films pool source_name min_confidence =
        (films.map (fun film =>
          (sortMatchesDesc (best_matchesFor source_name min_confidence film pool)).take 3)).flatten) ∧
    (∀ (films : List XFilm) (pool : List XItem) (source_name : String)
       (min_confidence : ℚ) (m : XMatch),
      m ∈ find_matches films pool source_name min_confidence →
      min_confidence ≤ m.confidence) ∧
    (∀ (pool : List XItem) (source_name : String) (min_confidence : ℚ)
       (film : XFilm),
      ((sortMatchesDesc (best_matchesFor source_name min_confidence film pool)).take 3).length ≤ 3 ∧
      ((sortMatchesDesc (best_matchesFor source_name min_confidence film pool)).take 3).Pairwise
        (fun a b => b.confidence ≤ a.confidence) ∧
      (∀ q : ℚ,
        (sortMatchesDesc (best_matchesFor source_name min_confidence film pool)).filter
            (fun m => decide (m.confidence = q)) =
          (best_matchesFor source_name min_confidence film pool).filter
            (fun m => decide (m.confidence = q)))) := by
  refine ⟨?_, mem_find_matches, ?_⟩
  · intro films pool source_name min_confidence
    induction films with
    | nil => rfl
    | cons film rest ih =>
      unfold find_matches at ih ⊢
      simp only [List.foldr_cons, List.map_cons, List.flatten_cons, ih]
  · intro pool source_name min_confidence film
    refine ⟨?_, ?_, fun q => filter_sortMatchesDesc q _⟩
    · rw [List.length_take]
      exact Nat.min_le_left 3 _
    · exact (pairwise_sortMatchesDesc _).sublist (List.take_sublist 3 _)

/-- C4 (witness): a concrete instance — one film and one pool item with an
exact title match (similarity 1.0 ≥ threshold 0): the returned candidate's
confidence meets the threshold, and the top-3 truncation bound holds. -/
theorem C4_witness :
    (0 : ℚ) ≤ (⟨⟨"ab", ""⟩, ⟨"ab", "", "", "", "v"⟩, "s", 1, "title_to_title",
      "ab", "", "ab", "", "v"⟩ : XMatch).confidence ∧
    ((sortMatchesDesc (best_matchesFor "s" 0 ⟨"ab", ""⟩
      [⟨"ab", "", "", "", "v"⟩])).take 3).length ≤ 3 := by
  constructor
  · exact C4_find_matches_spec.2.1 [⟨"ab", ""⟩] [⟨"ab", "", "", "", "v"⟩] "s" 0
      ⟨⟨"ab", ""⟩, ⟨"ab", "", "", "", "v"⟩, "s", 1, "title_to_title",
        "ab", "", "ab", "", "v"⟩ (by decide)
  · exact (C4_find_matches_spec.2.2 [⟨"ab", "", "", "", "v"⟩] "s" 0 ⟨"ab", ""⟩).1

/-! ## Score-scale bounds: SequenceMatcher, fuzzywuzzy and
`calculate_match_score` -/

theorem sumKBlocks_append (l1 l2 : List (Nat × Nat × Nat)) :
    sumKBlocks (l1 ++ l2) = sumKBlocks l1 + sumKBlocks l2 := by
  induction l1 with
  | nil => simp [sumKBlocks]
  | cons t rest ih => simp [sumKBlocks, ih]; omega

theorem sumKBlocks_matchingBlocks_le (n : Nat) :
    ∀ (a b : List Char) (alo ahi blo bhi : Nat), ahi - alo < n →
      sumKBlocks (matchingBlocks a b alo ahi blo bhi) ≤ ahi - alo ∧
      sumKBlocks (matchingBlocks a b alo ahi blo bhi) ≤ bhi - blo := by
  induction n with
  | zero => intro a b alo ahi blo bhi h; exact absurd h (Nat.not_lt_zero _)
  | succ n ih =>
    intro a b alo ahi blo bhi h
    rw [matchingBlocks]
    cases hf : flm a b alo ahi blo bhi with
    | none => simp [sumKBlocks]
    | some t =>
      have hs := flm_spec hf
      unfold flmP at hs
      have hleft := ih a b alo t.1 blo t.2.1 (by omega)
      have hright := ih a b (t.1 + t.2.2) ahi (t.2.1 + t.2.2) bhi (by omega)
      rw [sumKBlocks_append]
      simp only [sumKBlocks]
      omega

theorem smScore_nonneg (a b : List Char) : 0 ≤ smScore a b := by
  unfold smScore
  by_cases h : a.length + b.length = 0
  · rw [if_pos h]; norm_num
  · rw [if_neg h]
    positivity

theorem smScore_le_one (a b : List Char) : smScore a b ≤ 1 := by
  unfold smScore
  by_cases h : a.length + b.length = 0
  · rw [if_pos h]
  · rw [if_neg h]
    have h1 := (sumKBlocks_matchingBlocks_le (a.length + 1) a b 0 a.length 0 b.length
      (by omega)).1
    have h2 := (sumKBlocks_matchingBlocks_le (a.length + 1) a b 0 a.length 0 b.length
      (by omega)).2
    rw [div_le_one (by positivity)]
    push_cast
    simp only [Nat.sub_zero] at h1 h2
    have : 2 * sumKBlocks (matchingBlocks a b 0 a.length 0 b.length) ≤
        a.length + b.length := by omega
    exact_mod_cast this

theorem pyRound_le (q : ℚ) (c : ℤ) (hq : q ≤ (c : ℚ)) : pyRound q ≤ c := by
  have hfq : (q.floor : ℚ) ≤ q := by
    rw [Rat.floor_def']
    rw [← Rat.floor_def]
    exact Int.floor_le q
  have hfloor : q.floor ≤ c := by
    have : (q.floor : ℚ) ≤ (c : ℚ) := le_trans hfq hq
    exact_mod_cast this
  by_cases hc : q.floor = c
  · have hqc : q = (c : ℚ) := le_antisymm hq (by rw [← hc]; exact hfq)
    have hfrac : q - (q.floor : ℚ) < 1 / 2 := by
      rw [hc, hqc]
      norm_num
    unfold pyRound
    rw [if_pos hfrac]
    omega
  · have : q.floor + 1 ≤ c := by omega
    unfold pyRound
    split
    · omega
    · split
      · omega
      · split <;> omega

theorem pyRound_nonneg (q : ℚ) (hq : 0 ≤ q) : 0 ≤ pyRound q := by
  have h0 : (0 : ℤ) ≤ q.floor := by
    rw [Rat.floor_def', ← Rat.floor_def]
    exact Int.le_floor.2 (by exact_mod_cast hq)
  unfold pyRound
  split
  · omega
  · split
    · omega
    · split <;> omega

theorem fuzzRatioVal_bounds (s1 s2 : List Char) :
    0 ≤ fuzzRatioVal s1 s2 ∧ fuzzRatioVal s1 s2 ≤ 100 := by
  unfold fuzzRatioVal
  by_cases h : s1 = [] ∨ s2 = []
  · rw [if_pos h]; omega
  · rw [if_neg h]
    constructor
    · exact pyRound_nonneg _ (mul_nonneg (by norm_num) (smScore_nonneg s1 s2))
    · refine pyRound_le _ 100 ?_
      push_cast
      nlinarith [smScore_le_one s1 s2]

theorem maxListQ_le (c : ℚ) (h0 : 0 ≤ c) :
    ∀ l : List ℚ, (∀ x ∈ l, x ≤ c) → maxListQ l ≤ c := by
  have aux : ∀ (l : List ℚ) (acc : ℚ), acc ≤ c → (∀ x ∈ l, x ≤ c) →
      l.foldl max acc ≤ c := by
    intro l
    induction l with
    | nil => intro acc hacc _; simpa using hacc
    | cons y ys ih =>
      intro acc hacc hall
      simp only [List.foldl_cons]
      exact ih (max acc y) (max_le hacc (hall y (by simp)))
        (fun x hx => hall x (by simp [hx]))
  intro l hall
  match l with
  | [] => simpa [maxListQ] using h0
  | x :: xs =>
    exact aux xs x (hall x (by simp)) (fun y hy => hall y (by simp [hy]))

theorem fuzzTokenSortRatioVal_bounds (s1 s2 : List Char) :
    0 ≤ fuzzTokenSortRatioVal s1 s2 ∧ fuzzTokenSortRatioVal s1 s2 ≤ 100 :=
  fuzzRatioVal_bounds _ _

theorem maxListQ_le_one_of_smScores (l : List ℚ) (h : ∀ x ∈ l, x ≤ 1) :
    maxListQ l ≤ 1 :=
  maxListQ_le 1 (by norm_num) l h

theorem partialRatioCore_le (a b : List Char) : partialRatioCore a b ≤ 100 := by
  unfold partialRatioCore
  split
  · omega
  · refine pyRound_le _ 100 ?_
    have hall : ∀ x ∈ partialWindowScores a b, x ≤ 1 := by
      intro x hx
      rcases List.mem_map.1 hx with ⟨t, _, rfl⟩
      exact smScore_le_one _ _
    have := maxListQ_le_one_of_smScores _ hall
    push_cast
    nlinarith [this]

theorem fuzzPartialRatioVal_le (s1 s2 : List Char) :
    fuzzPartialRatioVal s1 s2 ≤ 100 := by
  unfold fuzzPartialRatioVal
  by_cases h : s1 = [] ∨ s2 = []
  · rw [if_pos h]; omega
  · rw [if_neg h]
    split
    · exact partialRatioCore_le s1 s2
    · exact partialRatioCore_le s2 s1

theorem mem_cmsScores_le (a b c : List Char) : ∀ x ∈ cmsScores a b c, x ≤ 100 := by
  intro x hx
  unfold cmsScores at hx
  simp only [List.mem_append] at hx
  rcases hx with ((((((((h | h) | h) | h) | h) | h) | h) | h) | h)
  · split at h
    · simp only [List.mem_singleton] at h
      rw [h]; norm_num
    · simp at h
  · split at h
    · simp only [List.mem_singleton] at h
      rw [h]; norm_num
    · simp at h
  · simp only [List.mem_singleton] at h
    rw [h]
    exact_mod_cast (fuzzRatioVal_bounds a b).2
  · split at h
    · simp only [List.mem_singleton] at h
      rw [h]
      exact_mod_cast (fuzzRatioVal_bounds a c).2
    · simp at h
  · simp only [List.mem_singleton] at h
    rw [h]
    exact_mod_cast (fuzzTokenSortRatioVal_bounds a b).2
  · split at h
    · simp only [List.mem_singleton] at h
      rw [h]
      exact_mod_cast (fuzzTokenSortRatioVal_bounds a c).2
    · simp at h
  · simp only [List.mem_singleton] at h
    rw [h]
    exact_mod_cast fuzzPartialRatioVal_le a b
  · split at h
    · simp only [List.mem_singleton] at h
      rw [h]
      exact_mod_cast fuzzPartialRatioVal_le a c
    · simp at h
  · split at h
    · next ve je heq1 heq2 =>
      split at h
      · simp only [List.mem_singleton] at h
        rw [h]
        exact min_le_right _ _
      · simp at h
    · simp at h

theorem cms_le_100 (vt jt jf : String) : calculate_match_score vt jt jf ≤ 100 := by
  unfold calculate_match_score
  split
  · exact le_refl _
  · exact maxListQ_le 100 (by norm_num) _ (mem_cmsScores_le _ _ _)

theorem fbmScore_le_105 (video : MVideo) (entry : MEntry) :
    fbmScore video entry ≤ 105 := by
  unfold fbmScore is_playlist_appropriate
  simp only [if_true]
  have := cms_le_100 video.title entry.title entry.fullTitle
  linarith

theorem fbm_fold_le_105 (min_confidence : ℚ) (video : MVideo) :
    ∀ (entries : List MEntry) (acc : Option MEntry × ℚ), acc.2 ≤ 105 →
      (entries.foldl (fbmStep min_confidence video) acc).2 ≤ 105 := by
  intro entries
  induction entries with
  | nil => intro acc hacc; simpa using hacc
  | cons entry rest ih =>
    intro acc hacc
    simp only [List.foldl_cons]
    refine ih _ ?_
    unfold fbmStep
    split
    · exact hacc
    · split
      · exact fbmScore_le_105 video entry
      · exact hacc

/-- C5 (counterexample): the claim that every confidence returned by
`find_best_match` is at most 100 is false.  `is_playlist_appropriate` always
returns `True`, so the +5 playlist bonus is always added and is not capped: on
an exact title match (`calculate_match_score = 100`) the returned confidence
is 105 > 100. -/
theorem C5_counterexample :
    (find_best_match 70 ⟨"a", "u", ""⟩ [⟨"a", "", ""⟩]).2 = 105 ∧
    ¬((105 : ℚ) ≤ 100) := by
  constructor
  · rw [fbm_concrete_one]
  · norm_num

/-- C5 (amended): every confidence returned by `find_best_match` is at most
105 — `calculate_match_score` never exceeds 100 (each strategy is bounded by
100: the exact branch, the 95 substring boosts, the fuzzywuzzy scorers whose
`SequenceMatcher` ratios are at most 1, and the episode bonus which is
explicitly capped at 100), and the only uncapped addition is the constant +5
playlist bonus, which `find_best_match` always applies. -/
theorem C5_confidence_le_105 (min_confidence : ℚ) (video : MVideo)
    (entries : List MEntry) :
    (find_best_match min_confidence video entries).2 ≤ 105 := by
  unfold find_best_match
  exact fbm_fold_le_105 min_confidence video entries (none, 0) (by norm_num)

/-! ## Normalizer iteration: counterexamples and length bounds -/

theorem length_lstripWs_le (l : List Char) : (lstripWs l).length ≤ l.length := by
  unfold lstripWs
  exact List.Sublist.length_le (List.dropWhile_sublist _)

theorem length_rstripWs_le (l : List Char) : (rstripWs l).length ≤ l.length := by
  unfold rstripWs
  rw [List.length_reverse]
  calc (l.reverse.dropWhile pyIsSpace).length ≤ l.reverse.length :=
        List.Sublist.length_le (List.dropWhile_sublist _)
    _ = l.length := List.length_reverse l

theorem length_pystripL_le (l : List Char) : (pystripL l).length ≤ l.length :=
  le_trans (length_rstripWs_le _) (length_lstripWs_le _)

theorem length_collapseWsAux_le (b : Bool) :
    ∀ l : List Char, (collapseWsAux b l).length ≤ l.length := by
  intro l
  induction l generalizing b with
  | nil => simp [collapseWsAux]
  | cons c rest ih =>
    unfold collapseWsAux
    by_cases hc : pyIsSpace c
    · rw [if_pos hc]
      cases b
      · simpa using Nat.succ_le_succ (ih true)
      · simp only [if_pos, List.nil_append, List.length_cons]
        exact le_trans (ih true) (Nat.le_succ _)
    · rw [if_neg hc]
      simpa using Nat.succ_le_succ (ih false)

theorem length_collapseWs_le (l : List Char) : (collapseWs l).length ≤ l.length :=
  length_collapseWsAux_le false l

theorem length_lstripSet_le (cs l : List Char) : (lstripSet cs l).length ≤ l.length :=
  List.Sublist.length_le (List.dropWhile_sublist _)

theorem length_rstripSet_le (cs l : List Char) : (rstripSet cs l).length ≤ l.length := by
  unfold rstripSet
  rw [List.length_reverse]
  calc (l.reverse.dropWhile _).length ≤ l.reverse.length :=
        List.Sublist.length_le (List.dropWhile_sublist _)
    _ = l.length := List.length_reverse l

theorem length_stripChars_le (cs l : List Char) : (stripChars cs l).length ≤ l.length :=
  le_trans (length_rstripSet_le _ _) (length_lstripSet_le _ _)

theorem length_sliceL_le (p j : Nat) (l : List Char) : (sliceL p j l).length ≤ l.length := by
  unfold sliceL
  calc ((l.drop p).take (j - p)).length ≤ (l.drop p).length :=
        List.Sublist.length_le (List.take_sublist _ _)
    _ ≤ l.length := List.Sublist.length_le (List.drop_sublist _ _)

theorem length_extractWrapped_le (label l : List Char) (g : List Char)
    (h : extractWrapped label l = some g) : g.length ≤ l.length := by
  unfold extractWrapped at h
  split at h
  · exact absurd h (by simp)
  · split at h
    · exact absurd h (by simp)
    · simp only [Option.some.injEq] at h
      rw [← h]
      exact length_sliceL_le _ _ _

theorem length_extractShiwanmao_le (l g : List Char)
    (h : extractShiwanmao l = some g) : g.length ≤ l.length := by
  unfold extractShiwanmao at h
  split at h
  · exact absurd h (by simp)
  · split at h
    · exact absurd h (by simp)
    · split at h
      · exact absurd h (by simp)
      · simp only [Option.some.injEq] at h
        rw [← h]
        exact length_sliceL_le _ _ _

theorem length_extractCore_le (l g : List Char)
    (h : extractCore l = some g) : g.length ≤ l.length := by
  unfold extractCore at h
  split at h
  · next h1 =>
    injection h with h
    rw [← h]
    exact length_extractWrapped_le _ _ _ h1
  · split at h
    · next h2 =>
      injection h with h
      rw [← h]
      exact length_extractWrapped_le _ _ _ h2
    · split at h
      · next h3 =>
        injection h with h
        rw [← h]
        exact length_extractWrapped_le _ _ _ h3
      · split at h
        · next h4 =>
          injection h with h
          rw [← h]
          exact length_extractShiwanmao_le _ _ h4
        · exact length_extractWrapped_le _ _ _ h

theorem length_cutBeforeSub_le (pat l : List Char) :
    (cutBeforeSub pat l).length ≤ l.length := by
  unfold cutBeforeSub
  cases findSubIdx pat l with
  | none => exact le_refl _
  | some i => exact List.Sublist.length_le (List.take_sublist _ _)

theorem length_cutBeforeSubCI_le (pat l : List Char) :
    (cutBeforeSubCI pat l).length ≤ l.length := by
  unfold cutBeforeSubCI
  cases findSubIdxCI pat l with
  | none => exact le_refl _
  | some i => exact List.Sublist.length_le (List.take_sublist _ _)

theorem length_normalize_titleL_le (t : List Char) :
    (normalize_titleL t).length ≤ t.length := by
  unfold normalize_titleL
  by_cases ht : t = []
  · simp [ht]
  · rw [if_neg ht]
    have h0 := length_pystripL_le t
    have h1 : ((extractCore (pystripL t)).getD (pystripL t)).length ≤ (pystripL t).length := by
      cases hex : extractCore (pystripL t) with
      | none => simp
      | some g => simpa using length_extractCore_le _ _ hex
    have h2 : (((extractCore (pystripL t)).getD (pystripL t)).takeWhile notPipe).length ≤
        ((extractCore (pystripL t)).getD (pystripL t)).length :=
      List.Sublist.length_le (List.takeWhile_sublist _)
    calc (pystripL (stripChars stripSetChars (collapseWs (cutBeforeSubCI "- youtube".data
          (cutBeforeSub "- YouTube".data (((extractCore (pystripL t)).getD
            (pystripL t)).takeWhile notPipe)))))).length
        ≤ (stripChars stripSetChars (collapseWs (cutBeforeSubCI "- youtube".data
          (cutBeforeSub "- YouTube".data (((extractCore (pystripL t)).getD
            (pystripL t)).takeWhile notPipe))))).length := length_pystripL_le _
      _ ≤ (collapseWs (cutBeforeSubCI "- youtube".data
          (cutBeforeSub "- YouTube".data (((extractCore (pystripL t)).getD
            (pystripL t)).takeWhile notPipe)))).length := length_stripChars_le _ _
      _ ≤ (cutBeforeSubCI "- youtube".data
          (cutBeforeSub "- YouTube".data (((extractCore (pystripL t)).getD
            (pystripL t)).takeWhile notPipe))).length := length_collapseWs_le _
      _ ≤ (cutBeforeSub "- YouTube".data (((extractCore (pystripL t)).getD
            (pystripL t)).takeWhile notPipe)).length := length_cutBeforeSubCI_le _ _
      _ ≤ ((((extractCore (pystripL t)).getD (pystripL t)).takeWhile notPipe)).length :=
          length_cutBeforeSub_le _ _
      _ ≤ ((extractCore (pystripL t)).getD (pystripL t)).length := h2
      _ ≤ (pystripL t).length := h1
      _ ≤ t.length := h0

theorem length_cutPipeShi_le (l : List Char) : (cutPipeShi l).length ≤ l.length := by
  unfold cutPipeShi
  cases findPipeShiAux l 0 with
  | none => exact le_refl _
  | some p =>
    exact le_trans (length_rstripWs_le _) (List.Sublist.length_le (List.take_sublist _ _))

theorem length_cutDashYT_le (l : List Char) : (cutDashYT l).length ≤ l.length := by
  unfold cutDashYT
  cases findDashYTAux l 0 with
  | none => exact le_refl _
  | some p =>
    exact le_trans (length_rstripWs_le _) (List.Sublist.length_le (List.take_sublist _ _))

theorem length_stripOptBracket_le (l : List Char) :
    (stripOptBracket l).length ≤ l.length := by
  cases l with
  | nil => simp [stripOptBracket]
  | cons c rest =>
    simp only [stripOptBracket]
    by_cases hb : (c = '《' || c = '〈') = true
    · rw [if_pos hb]
      simp
    · rw [if_neg hb]

theorem length_stripLabelPre_le (label l : List Char) :
    (stripLabelPre label l).length ≤ l.length := by
  unfold stripLabelPre
  by_cases hs : startsWithL (lstripWs l) label = true
  · rw [if_pos hs]
    calc (stripOptBracket (lstripWs ((lstripWs l).drop label.length))).length
        ≤ (lstripWs ((lstripWs l).drop label.length)).length := length_stripOptBracket_le _
      _ ≤ ((lstripWs l).drop label.length).length := length_lstripWs_le _
      _ ≤ (lstripWs l).length := List.Sublist.length_le (List.drop_sublist _ _)
      _ ≤ l.length := length_lstripWs_le _
  · rw [if_neg hs]

theorem length_stripTrailBracket_le (l : List Char) :
    (stripTrailBracket l).length ≤ l.length := by
  unfold stripTrailBracket
  split
  · split
    · calc (rstripWs l).dropLast.length ≤ (rstripWs l).length :=
            List.Sublist.length_le (List.dropLast_sublist _)
        _ ≤ l.length := length_rstripWs_le _
    · exact le_refl _
  · exact le_refl _

theorem length_clean_titleL_le (t : List Char) : (clean_titleL t).length ≤ t.length := by
  unfold clean_titleL
  by_cases ht : t = []
  · simp [ht]
  · rw [if_neg ht]
    calc (pystripL (collapseWs (stripTrailBracket (stripLabelPre "試乜都得".data
          (stripLabelPre "試音片".data (stripLabelPre "試映劇場".data
            (cutDashYT (cutPipeShi t)))))))).length
        ≤ (collapseWs (stripTrailBracket (stripLabelPre "試乜都得".data
          (stripLabelPre "試音片".data (stripLabelPre "試映劇場".data
            (cutDashYT (cutPipeShi t))))))).length := length_pystripL_le _
      _ ≤ (stripTrailBracket (stripLabelPre "試乜都得".data
          (stripLabelPre "試音片".data (stripLabelPre "試映劇場".data
            (cutDashYT (cutPipeShi t)))))).length := length_collapseWs_le _
      _ ≤ (stripLabelPre "試乜都得".data (stripLabelPre "試音片".data
          (stripLabelPre "試映劇場".data (cutDashYT (cutPipeShi t))))).length :=
          length_stripTrailBracket_le _
      _ ≤ (stripLabelPre "試音片".data (stripLabelPre "試映劇場".data
          (cutDashYT (cutPipeShi t)))).length := length_stripLabelPre_le _ _
      _ ≤ (stripLabelPre "試映劇場".data (cutDashYT (cutPipeShi t))).length :=
          length_stripLabelPre_le _ _
      _ ≤ (cutDashYT (cutPipeShi t)).length := length_stripLabelPre_le _ _
      _ ≤ (cutPipeShi t).length := length_cutDashYT_le _
      _ ≤ t.length := length_cutPipeShi_le _

/-- C2 (counterexample): neither normalizer is idempotent.
`normalize_title "a: |b"` yields `"a:"` (the final whitespace strip exposes a
trailing colon the decorative-character strip had already passed over), and a
second application strips that colon, yielding `"a"`.  `clean_title "a》》"`
removes one trailing closing bracket per application. -/
theorem C2_counterexample :
    normalize_title (normalize_title "a: |b") ≠ normalize_title "a: |b" ∧
    clean_title (clean_title "a》》") ≠ clean_title "a》》" := by
  constructor <;> decide

/-! ## Whitespace-free inputs: stability of the normalisation pipeline -/

theorem dropWhile_eq_self_of_all {p : Char → Bool} :
    ∀ l : List Char, (∀ c ∈ l, p c = false) → l.dropWhile p = l := by
  intro l h
  cases l with
  | nil => rfl
  | cons c rest =>
    have hc := h c (by simp)
    simp [List.dropWhile, hc]

theorem lstripWs_eq_self (l : List Char) (h : ∀ c ∈ l, pyIsSpace c = false) :
    lstripWs l = l :=
  dropWhile_eq_self_of_all l h

theorem rstripWs_eq_self (l : List Char) (h : ∀ c ∈ l, pyIsSpace c = false) :
    rstripWs l = l := by
  unfold rstripWs
  rw [dropWhile_eq_self_of_all l.reverse (fun c hc => h c (List.mem_reverse.1 hc)),
    List.reverse_reverse]

theorem pystripL_eq_self (l : List Char) (h : ∀ c ∈ l, pyIsSpace c = false) :
    pystripL l = l := by
  unfold pystripL
  rw [lstripWs_eq_self l h, rstripWs_eq_self l h]

theorem collapseWsAux_eq_self (b : Bool) :
    ∀ l : List Char, (∀ c ∈ l, pyIsSpace c = false) → collapseWsAux b l = l := by
  intro l
  induction l generalizing b with
  | nil => intro _; rfl
  | cons c rest ih =>
    intro h
    have hc := h c (by simp)
    unfold collapseWsAux
    rw [if_neg (by simp [hc]), ih false (fun x hx => h x (by simp [hx]))]

theorem collapseWs_eq_self (l : List Char) (h : ∀ c ∈ l, pyIsSpace c = false) :
    collapseWs l = l :=
  collapseWsAux_eq_self false l h

theorem sliceL_subset (p j : Nat) (l : List Char) : sliceL p j l ⊆ l :=
  fun c hc => List.drop_subset p l (List.take_subset _ _ hc)

theorem extractWrapped_subset (label l g : List Char)
    (h : extractWrapped label l = some g) : g ⊆ l := by
  unfold extractWrapped at h
  split at h
  · exact absurd h (by simp)
  · split at h
    · exact absurd h (by simp)
    · simp only [Option.some.injEq] at h
      rw [← h]
      exact sliceL_subset _ _ _

theorem extractShiwanmao_subset (l g : List Char)
    (h : extractShiwanmao l = some g) : g ⊆ l := by
  unfold extractShiwanmao at h
  split at h
  · exact absurd h (by simp)
  · split at h
    · exact absurd h (by simp)
    · split at h
      · exact absurd h (by simp)
      · simp only [Option.some.injEq] at h
        rw [← h]
        exact sliceL_subset _ _ _

theorem extractCore_subset (l g : List Char) (h : extractCore l = some g) : g ⊆ l := by
  unfold extractCore at h
  split at h
  · next h1 => injection h with h; rw [← h]; exact extractWrapped_subset _ _ _ h1
  · split at h
    · next h2 => injection h with h; rw [← h]; exact extractWrapped_subset _ _ _ h2
    · split at h
      · next h3 => injection h with h; rw [← h]; exact extractWrapped_subset _ _ _ h3
      · split at h
        · next h4 => injection h with h; rw [← h]; exact extractShiwanmao_subset _ _ h4
        · exact extractWrapped_subset _ _ _ h

theorem cutBeforeSub_subset (pat l : List Char) : cutBeforeSub pat l ⊆ l := by
  unfold cutBeforeSub
  cases findSubIdx pat l with
  | none => exact fun c hc => hc
  | some i => exact List.take_subset _ _

theorem cutBeforeSubCI_subset (pat l : List Char) : cutBeforeSubCI pat l ⊆ l := by
  unfold cutBeforeSubCI
  cases findSubIdxCI pat l with
  | none => exact fun c hc => hc
  | some i => exact List.take_subset _ _

theorem lstripSet_subset (cs l : List Char) : lstripSet cs l ⊆ l :=
  (List.dropWhile_suffix _).subset

theorem rstripSet_subset (cs l : List Char) : rstripSet cs l ⊆ l := by
  intro c hc
  unfold rstripSet at hc
  rw [List.mem_reverse] at hc
  exact List.mem_reverse.1 ((List.dropWhile_suffix _).subset hc)

theorem stripChars_subset (cs l : List Char) : stripChars cs l ⊆ l :=
  fun c hc => lstripSet_subset cs l (rstripSet_subset cs _ hc)

theorem lstripWs_subset (l : List Char) : lstripWs l ⊆ l :=
  (List.dropWhile_suffix _).subset

theorem rstripWs_subset (l : List Char) : rstripWs l ⊆ l := by
  intro c hc
  unfold rstripWs at hc
  rw [List.mem_reverse] at hc
  exact List.mem_reverse.1 ((List.dropWhile_suffix _).subset hc)

theorem pystripL_subset (l : List Char) : pystripL l ⊆ l :=
  fun c hc => lstripWs_subset l (rstripWs_subset _ hc)

/-! ## Prefix / infix structure of the pipeline stages -/

theorem rstripSet_pre (cs l : List Char) : rstripSet cs l <+: l := by
  have h := List.dropWhile_suffix (l := l.reverse) (fun c => cs.contains c)
  have := List.reverse_prefix.2 h
  simpa [rstripSet] using this

theorem rstripWs_pre (l : List Char) : rstripWs l <+: l := by
  have h := List.dropWhile_suffix (l := l.reverse) pyIsSpace
  have := List.reverse_prefix.2 h
  simpa [rstripWs] using this

theorem stripChars_inf (cs l : List Char) : stripChars cs l <:+: l :=
  (rstripSet_pre cs (lstripSet cs l)).isInfix.trans
    (List.dropWhile_suffix _).isInfix

theorem pystripL_inf (l : List Char) : pystripL l <:+: l :=
  (rstripWs_pre (lstripWs l)).isInfix.trans (List.dropWhile_suffix _).isInfix

theorem cutBeforeSub_pre (pat l : List Char) : cutBeforeSub pat l <+: l := by
  unfold cutBeforeSub
  cases findSubIdx pat l with
  | none => exact List.prefix_refl l
  | some i => exact List.take_prefix _ _

theorem cutBeforeSubCI_pre (pat l : List Char) : cutBeforeSubCI pat l <+: l := by
  unfold cutBeforeSubCI
  cases findSubIdxCI pat l with
  | none => exact List.prefix_refl l
  | some i => exact List.take_prefix _ _

/-! ## Specifications of the scanning primitives -/

theorem findIdxFromAux_none_spec (t : Char) :
    ∀ (m : List Char) (i : Nat), findIdxFromAux t m i = none → t ∉ m := by
  intro m
  induction m with
  | nil => intro i _; simp
  | cons c rest ih =>
    intro i h
    unfold findIdxFromAux at h
    by_cases hc : c = t
    · rw [if_pos hc] at h
      exact absurd h (by simp)
    · rw [if_neg hc] at h
      simp only [List.mem_cons]
      rintro (rfl | hm)
      · exact hc rfl
      · exact ih (i + 1) h hm

theorem findIdxFromAux_ge (t : Char) :
    ∀ (m : List Char) (i r : Nat), findIdxFromAux t m i = some r → i ≤ r := by
  intro m
  induction m with
  | nil => intro i r h; simp [findIdxFromAux] at h
  | cons c rest ih =>
    intro i r h
    unfold findIdxFromAux at h
    by_cases hc : c = t
    · rw [if_pos hc] at h
      injection h with h
      omega
    · rw [if_neg hc] at h
      exact le_trans (Nat.le_succ i) (ih (i + 1) r h)

theorem findIdxFromAux_get (t : Char) :
    ∀ (m : List Char) (i r : Nat), findIdxFromAux t m i = some r →
      m[r - i]? = some t := by
  intro m
  induction m with
  | nil => intro i r h; simp [findIdxFromAux] at h
  | cons c rest ih =>
    intro i r h
    unfold findIdxFromAux at h
    by_cases hc : c = t
    · rw [if_pos hc] at h
      injection h with h
      subst h
      simp [hc]
    · rw [if_neg hc] at h
      have hge := findIdxFromAux_ge t rest (i + 1) r h
      have := ih (i + 1) r h
      have hri : r - i = (r - (i + 1)) + 1 := by omega
      rw [hri]
      simpa using this

theorem findIdxFromAux_not_mem_take (t : Char) :
    ∀ (m : List Char) (i r : Nat), findIdxFromAux t m i = some r →
      t ∉ m.take (r - i) := by
  intro m
  induction m with
  | nil => intro i r h; simp [findIdxFromAux] at h
  | cons c rest ih =>
    intro i r h
    unfold findIdxFromAux at h
    by_cases hc : c = t
    · rw [if_pos hc] at h
      injection h with h
      subst h
      simp
    · rw [if_neg hc] at h
      have hge := findIdxFromAux_ge t rest (i + 1) r h
      have hih := ih (i + 1) r h
      have hri : r - i = (r - (i + 1)) + 1 := by omega
      rw [hri, List.take_succ_cons]
      simp only [List.mem_cons]
      rintro (rfl | hm)
      · exact hc rfl
      · exact hih hm

theorem findCharFrom_none_spec (t : Char) (start : Nat) (l : List Char)
    (h : findCharFrom t start l = none) :
    ∀ idx, start ≤ idx → l[idx]? ≠ some t := by
  intro idx hidx hget
  have hnm := findIdxFromAux_none_spec t (l.drop start) start h
  apply hnm
  have : (l.drop start)[idx - start]? = some t := by
    rw [List.getElem?_drop]
    have : start + (idx - start) = idx := by omega
    rw [this]
    exact hget
  obtain ⟨hlt, he⟩ := List.getElem?_eq_some.1 this
  rw [← he]
  exact List.getElem_mem hlt

theorem findCharFrom_ge (t : Char) (start : Nat) (l : List Char) (r : Nat)
    (h : findCharFrom t start l = some r) : start ≤ r :=
  findIdxFromAux_ge t (l.drop start) start r h

theorem findCharFrom_get (t : Char) (start : Nat) (l : List Char) (r : Nat)
    (h : findCharFrom t start l = some r) : l[r]? = some t := by
  have := findIdxFromAux_get t (l.drop start) start r h
  rw [List.getElem?_drop] at this
  have hge := findCharFrom_ge t start l r h
  have heq : start + (r - start) = r := by omega
  rwa [heq] at this

theorem findCharFrom_min (t : Char) (start : Nat) (l : List Char) (r : Nat)
    (h : findCharFrom t start l = some r) :
    ∀ idx, start ≤ idx → idx < r → l[idx]? ≠ some t := by
  intro idx h1 h2 hget
  have hnotmem := findIdxFromAux_not_mem_take t (l.drop start) start r h
  apply hnotmem
  have : ((l.drop start).take (r - start))[idx - start]? = some t := by
    rw [List.getElem?_take, if_pos (show idx - start < r - start by omega),
      List.getElem?_drop]
    have : start + (idx - start) = idx := by omega
    rw [this]
    exact hget
  obtain ⟨hlt, he⟩ := List.getElem?_eq_some.1 this
  rw [← he]
  exact List.getElem_mem hlt

theorem findCharFrom_none_of_not_mem (t : Char) (start : Nat) (l : List Char)
    (h : t ∉ l) : findCharFrom t start l = none := by
  cases hf : findCharFrom t start l with
  | none => rfl
  | some r =>
    exfalso
    apply h
    have := findCharFrom_get t start l r hf
    obtain ⟨hlt, he⟩ := List.getElem?_eq_some.1 this
    rw [← he]
    exact List.getElem_mem hlt

theorem startsWithL_iff :
    ∀ (l pat : List Char), startsWithL l pat = true ↔ pat <+: l := by
  intro l pat
  induction pat generalizing l with
  | nil => simp [startsWithL]
  | cons p ps ih =>
    cases l with
    | nil => simp [startsWithL]
    | cons c cs =>
      simp only [startsWithL, Bool.and_eq_true, decide_eq_true_eq, ih,
        List.cons_prefix_cons]
      constructor
      · rintro ⟨h1, h2⟩
        exact ⟨h1.symm, h2⟩
      · rintro ⟨h1, h2⟩
        exact ⟨h1.symm, h2⟩

theorem findSubIdx_isSome_iff :
    ∀ (pat l : List Char), (findSubIdx pat l).isSome = true ↔ pat <:+: l := by
  intro pat l
  induction l with
  | nil =>
    unfold findSubIdx
    by_cases hp : pat = []
    · simp [hp]
    · simp only [hp, if_neg, not_false_iff, Option.isSome_none,
        Bool.false_eq_true, false_iff]
      intro hinf
      exact hp (List.eq_nil_of_infix_nil hinf)
  | cons c rest ih =>
    unfold findSubIdx
    by_cases hs : startsWithL (c :: rest) pat = true
    · simp only [hs, if_pos, Option.isSome_some, true_iff]
      exact ((startsWithL_iff _ _).1 hs).isInfix
    · simp only [hs, if_neg, not_false_iff, Bool.false_eq_true]
      rw [List.infix_cons_iff]
      constructor
      · intro h
        right
        rw [← ih]
        cases hfi : findSubIdx pat rest with
        | none => rw [hfi] at h; simp at h
        | some i => simp
      · rintro (h | h)
        · exact absurd ((startsWithL_iff _ _).2 h) hs
        · rw [← ih] at h
          cases hfi : findSubIdx pat rest with
          | none => rw [hfi] at h; simp at h
          | some i => simp [hfi]

theorem findSubIdx_startsWith :
    ∀ (pat l : List Char) (s : Nat), findSubIdx pat l = some s →
      startsWithL (l.drop s) pat = true := by
  intro pat l
  induction l with
  | nil =>
    intro s h
    unfold findSubIdx at h
    by_cases hp : pat = []
    · rw [if_pos hp] at h
      injection h with h
      subst h
      simp [hp, startsWithL]
    · rw [if_neg hp] at h
      exact absurd h (by simp)
  | cons c rest ih =>
    intro s h
    unfold findSubIdx at h
    by_cases hs : startsWithL (c :: rest) pat = true
    · rw [if_pos hs] at h
      injection h with h
      subst h
      simpa using hs
    · rw [if_neg hs] at h
      cases hfi : findSubIdx pat rest with
      | none => rw [hfi] at h; exact absurd h (by simp)
      | some i =>
        rw [hfi] at h
        simp only [Option.map_some', Option.some.injEq] at h
        subst h
        simpa using ih i hfi

theorem findSubIdx_min :
    ∀ (pat l : List Char) (s : Nat), findSubIdx pat l = some s →
      ∀ s' < s, startsWithL (l.drop s') pat = false := by
  intro pat l
  induction l with
  | nil =>
    intro s h s' hs'
    unfold findSubIdx at h
    by_cases hp : pat = []
    · rw [if_pos hp] at h
      injection h with h
      omega
    · rw [if_neg hp] at h
      exact absurd h (by simp)
  | cons c rest ih =>
    intro s h s' hs'
    unfold findSubIdx at h
    by_cases hs : startsWithL (c :: rest) pat = true
    · rw [if_pos hs] at h
      injection h with h
      omega
    · rw [if_neg hs] at h
      cases hfi : findSubIdx pat rest with
      | none => rw [hfi] at h; exact absurd h (by simp)
      | some i =>
        rw [hfi] at h
        simp only [Option.map_some', Option.some.injEq] at h
        subst h
        match s' with
        | 0 => simpa using hs
        | Nat.succ k =>
          have := ih i hfi k (by omega)
          simpa using this

theorem startsWithCIL_iff :
    ∀ (l pat : List Char), startsWithCIL l pat = true ↔ toLowerL pat <+: toLowerL l := by
  intro l pat
  induction pat generalizing l with
  | nil => simp [startsWithCIL, toLowerL]
  | cons p ps ih =>
    cases l with
    | nil => simp [startsWithCIL, toLowerL]
    | cons c cs =>
      simp only [startsWithCIL, Bool.and_eq_true, decide_eq_true_eq, ih, toLowerL,
        List.map_cons, List.cons_prefix_cons]
      constructor
      · rintro ⟨h1, h2⟩
        exact ⟨h1.symm, h2⟩
      · rintro ⟨h1, h2⟩
        exact ⟨h1.symm, h2⟩

theorem findSubIdxCI_isSome_iff :
    ∀ (pat l : List Char), (findSubIdxCI pat l).isSome = true ↔
      toLowerL pat <:+: toLowerL l := by
  intro pat l
  induction l with
  | nil =>
    unfold findSubIdxCI
    by_cases hp : pat = []
    · simp [hp, toLowerL]
    · simp only [hp, if_neg, not_false_iff, Option.isSome_none,
        Bool.false_eq_true, false_iff, toLowerL, List.map_nil]
      intro hinf
      have := List.eq_nil_of_infix_nil hinf
      exact hp (by simpa [toLowerL] using this)
  | cons c rest ih =>
    unfold findSubIdxCI
    by_cases hs : startsWithCIL (c :: rest) pat = true
    · simp only [hs, if_pos, Option.isSome_some, true_iff]
      exact ((startsWithCIL_iff _ _).1 hs).isInfix
    · simp only [hs, if_neg, not_false_iff, Bool.false_eq_true]
      have hmap : toLowerL (c :: rest) = c.toLower :: toLowerL rest := by
        simp [toLowerL]
      rw [hmap, List.infix_cons_iff]
      constructor
      · intro h
        right
        rw [← ih]
        cases hfi : findSubIdxCI pat rest with
        | none => rw [hfi] at h; simp at h
        | some i => simp
      · rintro (h | h)
        · refine absurd ((startsWithCIL_iff (c :: rest) pat).2 ?_) hs
          rw [hmap]
          exact h
        · rw [← ih] at h
          cases hfi : findSubIdxCI pat rest with
          | none => rw [hfi] at h; simp at h
          | some i => simp [hfi]

theorem findSubIdxCI_min_take :
    ∀ (pat l : List Char) (i : Nat), pat ≠ [] → findSubIdxCI pat l = some i →
      ¬ toLowerL pat <:+: toLowerL (l.take i) := by
  intro pat l
  induction l with
  | nil =>
    intro i hp h
    unfold findSubIdxCI at h
    rw [if_neg hp] at h
    exact absurd h (by simp)
  | cons c rest ih =>
    intro i hp h
    unfold findSubIdxCI at h
    by_cases hs : startsWithCIL (c :: rest) pat = true
    · rw [if_pos hs] at h
      injection h with h
      subst h
      simp only [List.take_zero, toLowerL, List.map_nil]
      intro hinf
      exact hp (by simpa [toLowerL] using List.eq_nil_of_infix_nil hinf)
    · rw [if_neg hs] at h
      cases hfi : findSubIdxCI pat rest with
      | none => rw [hfi] at h; exact absurd h (by simp)
      | some k =>
        rw [hfi] at h
        simp only [Option.map_some', Option.some.injEq] at h
        subst h
        rw [List.take_succ_cons]
        have hmap : toLowerL (c :: rest.take k) = c.toLower :: toLowerL (rest.take k) := by
          simp [toLowerL]
        rw [hmap, List.infix_cons_iff]
        rintro (hpre | hinf)
        · apply hs
          rw [startsWithCIL_iff]
          have hlift : toLowerL (c :: rest.take k) <+: toLowerL (c :: rest) := by
            refine List.IsPrefix.map _ ?_
            rw [List.cons_prefix_cons]
            exact ⟨rfl, List.take_prefix k rest⟩
          rw [hmap] at hlift
          exact hpre.trans hlift
        · exact ih k hp hfi hinf

theorem cutBeforeSubCI_no_occurrence (pat l : List Char) (hp : pat ≠ []) :
    ¬ toLowerL pat <:+: toLowerL (cutBeforeSubCI pat l) := by
  unfold cutBeforeSubCI
  cases h : findSubIdxCI pat l with
  | none =>
    intro hinf
    have : (findSubIdxCI pat l).isSome = true := (findSubIdxCI_isSome_iff pat l).2 hinf
    rw [h] at this
    simp at this
  | some i => exact findSubIdxCI_min_take pat l i hp h

theorem findSubIdx_none_of_noCI (pat l : List Char)
    (h : ¬ toLowerL pat <:+: toLowerL l) : findSubIdx pat l = none := by
  cases hf : findSubIdx pat l with
  | none => rfl
  | some i =>
    exfalso
    apply h
    have : (findSubIdx pat l).isSome = true := by rw [hf]; rfl
    exact ((findSubIdx_isSome_iff pat l).1 this).map Char.toLower

theorem findSubIdxCI_none_of_noCI (pat l : List Char)
    (h : ¬ toLowerL pat <:+: toLowerL l) : findSubIdxCI pat l = none := by
  cases hf : findSubIdxCI pat l with
  | none => rfl
  | some i =>
    exfalso
    apply h
    have : (findSubIdxCI pat l).isSome = true := by rw [hf]; rfl
    exact (findSubIdxCI_isSome_iff pat l).1 this

theorem cutBeforeSub_eq_self (pat l : List Char) (h : findSubIdx pat l = none) :
    cutBeforeSub pat l = l := by
  unfold cutBeforeSub
  rw [h]

theorem cutBeforeSubCI_eq_self (pat l : List Char) (h : findSubIdxCI pat l = none) :
    cutBeforeSubCI pat l = l := by
  unfold cutBeforeSubCI
  rw [h]

theorem takeWhile_eq_self_of_all {p : Char → Bool} :
    ∀ l : List Char, (∀ c ∈ l, p c = true) → l.takeWhile p = l := by
  intro l h
  induction l with
  | nil => rfl
  | cons c rest ih =>
    have hc := h c (by simp)
    simp only [List.takeWhile_cons, hc, if_pos]
    rw [ih (fun x hx => h x (by simp [hx]))]

theorem dropWhileP_idem {p : Char → Bool} :
    ∀ l : List Char, (l.dropWhile p).dropWhile p = l.dropWhile p := by
  intro l
  induction l with
  | nil => rfl
  | cons c rest ih =>
    by_cases hc : p c = true
    · simp only [List.dropWhile_cons, hc, if_pos]
      exact ih
    · simp [List.dropWhile_cons, hc]

theorem dropWhile_head_false {p : Char → Bool} :
    ∀ (l : List Char) (c : Char) (rest : List Char),
      l.dropWhile p = c :: rest → p c = false := by
  intro l
  induction l with
  | nil => intro c rest h; simp at h
  | cons d ds ih =>
    intro c rest h
    by_cases hd : p d = true
    · rw [List.dropWhile_cons, if_pos hd] at h
      exact ih c rest h
    · rw [List.dropWhile_cons, if_neg hd] at h
      injection h with h1 _
      rw [← h1]
      simpa using hd

theorem rstripSet_idem (cs l : List Char) :
    rstripSet cs (rstripSet cs l) = rstripSet cs l := by
  unfold rstripSet
  rw [List.reverse_reverse, dropWhileP_idem]

theorem lstripSet_of_rstripSet (cs l : List Char) :
    lstripSet cs (rstripSet cs (lstripSet cs l)) = rstripSet cs (lstripSet cs l) := by
  cases hA : lstripSet cs l with
  | nil =>
    have : rstripSet cs ([] : List Char) = [] := by simp [rstripSet]
    rw [this]
    rfl
  | cons c A =>
    have hA' : l.dropWhile (fun x => cs.contains x) = c :: A := hA
    have hc : cs.contains c = false := dropWhile_head_false l c A hA'
    have hpre : rstripSet cs (c :: A) <+: c :: A := rstripSet_pre cs (c :: A)
    cases hB : rstripSet cs (c :: A) with
    | nil => rfl
    | cons b B =>
      rw [hB] at hpre
      rw [List.cons_prefix_cons] at hpre
      obtain ⟨rfl, _⟩ := hpre
      unfold lstripSet
      rw [List.dropWhile_cons, if_neg (by simpa using hc)]

theorem stripChars_idem (cs l : List Char) :
    stripChars cs (stripChars cs l) = stripChars cs l := by
  unfold stripChars
  rw [lstripSet_of_rstripSet, rstripSet_idem]

/-! ## Wrapper-pattern matching: failure conditions and decompositions -/

theorem extractWrapped_none_of_no_close (label l : List Char) (h : '》' ∉ l) :
    extractWrapped label l = none := by
  unfold extractWrapped
  split
  · rfl
  · rw [findCharFrom_none_of_not_mem '》' _ l h]

theorem extractShiwanmao_none_of_no_close (l : List Char) (h : '》' ∉ l) :
    extractShiwanmao l = none := by
  unfold extractShiwanmao
  split
  · rfl
  · split
    · rfl
    · rw [findCharFrom_none_of_not_mem '》' _ l h]

theorem extractCore_none_of_no_close (l : List Char) (h : '》' ∉ l) :
    extractCore l = none := by
  unfold extractCore
  rw [extractWrapped_none_of_no_close _ _ h, extractWrapped_none_of_no_close _ _ h,
    extractWrapped_none_of_no_close _ _ h, extractShiwanmao_none_of_no_close _ h,
    extractWrapped_none_of_no_close _ _ h]

theorem mem_take_drop_elem (l : List Char) (p m : Nat) (c : Char)
    (h : c ∈ (l.drop p).take m) : ∃ k, k < m ∧ l[p + k]? = some c := by
  obtain ⟨n, hn⟩ := List.mem_iff_getElem?.1 h
  have hlt : n < m := by
    by_contra hge
    rw [List.getElem?_take, if_neg (by omega)] at hn
    exact absurd hn (by simp)
  rw [List.getElem?_take, if_pos hlt, List.getElem?_drop] at hn
  exact ⟨n, hlt, hn⟩

theorem extractWrapped_group_no_close (label l g : List Char)
    (h : extractWrapped label l = some g) : '》' ∉ g.drop 1 := by
  unfold extractWrapped at h
  split at h
  · exact absurd h (by simp)
  · next s h1 =>
    split at h
    · exact absurd h (by simp)
    · next j h2 =>
      simp only [Option.some.injEq] at h
      subst h
      intro hmem
      unfold sliceL at hmem
      rw [List.drop_take, List.drop_drop] at hmem
      obtain ⟨k, hk, hget⟩ := mem_take_drop_elem l _ _ '》' hmem
      refine findCharFrom_min '》' (s + label.length + 1 + 1) l j h2
        (1 + (s + label.length + 1) + k) (by omega) (by omega) ?_
      have : 1 + (s + label.length + 1) + k = s + label.length + 1 + 1 + k := by omega
      rw [this]
      exact hget

theorem extractShiwanmao_group_no_close (l g : List Char)
    (h : extractShiwanmao l = some g) : '》' ∉ g.drop 1 := by
  unfold extractShiwanmao at h
  split at h
  · exact absurd h (by simp)
  · next s h1 =>
    split at h
    · exact absurd h (by simp)
    · next g0 h2 =>
      split at h
      · exact absurd h (by simp)
      · next j h3 =>
        simp only [Option.some.injEq] at h
        subst h
        intro hmem
        unfold sliceL at hmem
        rw [List.drop_take, List.drop_drop] at hmem
        obtain ⟨k, hk, hget⟩ := mem_take_drop_elem l _ _ '》' hmem
        refine findCharFrom_min '》' (g0 + 2) l j h3 (1 + (g0 + 1) + k)
          (by omega) (by omega) ?_
        have : 1 + (g0 + 1) + k = g0 + 1 + 1 + k := by omega
        rw [this]
        exact hget

theorem extractCore_group_no_close (l g : List Char)
    (h : extractCore l = some g) : '》' ∉ g.drop 1 := by
  unfold extractCore at h
  split at h
  · next h1 => injection h with h; rw [← h]; exact extractWrapped_group_no_close _ _ _ h1
  · split at h
    · next h2 => injection h with h; rw [← h]; exact extractWrapped_group_no_close _ _ _ h2
    · split at h
      · next h3 => injection h with h; rw [← h]; exact extractWrapped_group_no_close _ _ _ h3
      · split at h
        · next h4 => injection h with h; rw [← h]; exact extractShiwanmao_group_no_close _ _ h4
        · exact extractWrapped_group_no_close _ _ _ h

theorem drop_decompose (c : Char) (l : List Char) (p j : Nat) (hpj : p ≤ j)
    (hget : l[j]? = some c) :
    l.drop p = sliceL p j l ++ c :: l.drop (j + 1) := by
  obtain ⟨hjlt, hval⟩ := List.getElem?_eq_some.1 hget
  have h2 : (l.drop p).drop (j - p) = l.drop j := by
    rw [List.drop_drop]
    congr 1
    omega
  have h3 : l.drop j = c :: l.drop (j + 1) := by
    rw [List.drop_eq_getElem_cons hjlt, hval]
  calc l.drop p = (l.drop p).take (j - p) ++ (l.drop p).drop (j - p) :=
        (List.take_append_drop _ _).symm
    _ = sliceL p j l ++ c :: l.drop (j + 1) := by rw [h2, h3]; rfl

theorem extractWrapped_decomp (label l g : List Char)
    (h : extractWrapped label l = some g) :
    ∃ x y z, l = x ++ (label ++ ['《']) ++ y ++ '》' :: z ∧ y ≠ [] := by
  unfold extractWrapped at h
  split at h
  · exact absurd h (by simp)
  · next s h1 =>
    split at h
    · exact absurd h (by simp)
    · next j h2 =>
      have hsw := findSubIdx_startsWith _ l s h1
      have hpre : (label ++ ['《']) <+: l.drop s := (startsWithL_iff _ _).1 hsw
      obtain ⟨r, hr⟩ := hpre
      have hplen : (label ++ ['《']).length = label.length + 1 := by simp
      have hge := findCharFrom_ge '》' (s + label.length + 1 + 1) l j h2
      have hget := findCharFrom_get '》' (s + label.length + 1 + 1) l j h2
      have hjlt := (List.getElem?_eq_some.1 hget).1
      have hr' : r = l.drop (s + label.length + 1) := by
        have hcong := congrArg (fun w => w.drop (label.length + 1)) hr
        simp only at hcong
        rw [← hplen, List.drop_left, List.drop_drop, hplen] at hcong
        exact hcong
      have hdec := drop_decompose '》' l (s + label.length + 1) j (by omega) hget
      refine ⟨l.take s, sliceL (s + label.length + 1) j l, l.drop (j + 1), ?_, ?_⟩
      · calc l = l.take s ++ l.drop s := (List.take_append_drop s l).symm
          _ = l.take s ++ ((label ++ ['《']) ++ r) := by rw [hr]
          _ = l.take s ++ ((label ++ ['《']) ++
              (sliceL (s + label.length + 1) j l ++ '》' :: l.drop (j + 1))) := by
              rw [hr', hdec]
          _ = l.take s ++ (label ++ ['《']) ++
              sliceL (s + label.length + 1) j l ++ '》' :: l.drop (j + 1) := by
              simp [List.append_assoc]
      · have hlen : (sliceL (s + label.length + 1) j l).length =
            min (j - (s + label.length + 1)) (l.length - (s + label.length + 1)) := by
          simp [sliceL]
        intro hnil
        rw [hnil] at hlen
        simp only [List.length_nil] at hlen
        omega

theorem extractWrapped_isSome_of_decomp (label l : List Char)
    (x y z : List Char) (hl : l = x ++ (label ++ ['《']) ++ y ++ '》' :: z)
    (hy : y ≠ []) : (extractWrapped label l).isSome = true := by
  have hinf : (label ++ ['《']) <:+: l :=
    ⟨x, y ++ '》' :: z, by rw [hl]; simp [List.append_assoc]⟩
  have hsome := (findSubIdx_isSome_iff (label ++ ['《']) l).2 hinf
  have hylen : 1 ≤ y.length := by
    cases y with
    | nil => exact absurd rfl hy
    | cons _ _ => simp
  cases h1 : findSubIdx (label ++ ['《']) l with
  | none => rw [h1] at hsome; simp at hsome
  | some s =>
    have hsx : s ≤ x.length := by
      by_contra hgt
      have hmin := findSubIdx_min _ l s h1 x.length (by omega)
      have hst : startsWithL (l.drop x.length) (label ++ ['《']) = true := by
        rw [startsWithL_iff, hl, List.append_assoc, List.append_assoc, List.drop_left]
        exact ⟨y ++ '》' :: z, by simp [List.append_assoc]⟩
      rw [hst] at hmin
      exact absurd hmin (by simp)
    have hJ : l[(x.length + (label.length + 1) + y.length)]? = some '》' := by
      rw [hl]
      have hassoc : x ++ (label ++ ['《']) ++ y ++ '》' :: z =
          (x ++ (label ++ ['《']) ++ y) ++ '》' :: z := by simp [List.append_assoc]
      have hlen : (x ++ (label ++ ['《']) ++ y).length =
          x.length + (label.length + 1) + y.length := by
        simp only [List.length_append, List.length_cons, List.length_nil]
      rw [hassoc, List.getElem?_append_right (by omega), hlen]
      simp
    cases h2 : findCharFrom '》' (s + label.length + 1 + 1) l with
    | none =>
      exfalso
      exact findCharFrom_none_spec '》' _ l h2
        (x.length + (label.length + 1) + y.length) (by omega) hJ
    | some j =>
      simp [extractWrapped, h1, h2]

theorem extractShiwanmao_decomp (l g : List Char)
    (h : extractShiwanmao l = some g) :
    ∃ x y z w, l = x ++ "試玩毛".data ++ y ++ '《' :: z ++ '》' :: w ∧ z ≠ [] := by
  unfold extractShiwanmao at h
  split at h
  · exact absurd h (by simp)
  · next s h1 =>
    split at h
    · exact absurd h (by simp)
    · next g0 h2 =>
      split at h
      · exact absurd h (by simp)
      · next j h3 =>
        have hsw := findSubIdx_startsWith _ l s h1
        have hpre : "試玩毛".data <+: l.drop s := (startsWithL_iff _ _).1 hsw
        obtain ⟨r, hr⟩ := hpre
        have h33 : ("試玩毛".data).length = 3 := by decide
        have hr' : r = l.drop (s + 3) := by
          have hcong := congrArg (fun w => w.drop 3) hr
          simp only at hcong
          rw [← h33, List.drop_left, List.drop_drop, h33] at hcong
          exact hcong
        have hge2 := findCharFrom_ge '《' (s + 3) l g0 h2
        have hget2 := findCharFrom_get '《' (s + 3) l g0 h2
        have hge3 := findCharFrom_ge '》' (g0 + 2) l j h3
        have hget3 := findCharFrom_get '》' (g0 + 2) l j h3
        have hjlt := (List.getElem?_eq_some.1 hget3).1
        have hdecg := drop_decompose '《' l (s + 3) g0 (by omega) hget2
        have hdecj := drop_decompose '》' l (g0 + 1) j (by omega) hget3
        refine ⟨l.take s, sliceL (s + 3) g0 l, sliceL (g0 + 1) j l, l.drop (j + 1), ?_, ?_⟩
        · calc l = l.take s ++ l.drop s := (List.take_append_drop s l).symm
            _ = l.take s ++ ("試玩毛".data ++ r) := by rw [hr]
            _ = l.take s ++ ("試玩毛".data ++ (sliceL (s + 3) g0 l ++
                '《' :: (sliceL (g0 + 1) j l ++ '》' :: l.drop (j + 1)))) := by
                rw [hr', hdecg, hdecj]
            _ = l.take s ++ "試玩毛".data ++ sliceL (s + 3) g0 l ++
                '《' :: sliceL (g0 + 1) j l ++ '》' :: l.drop (j + 1) := by
                simp [List.append_assoc]
        · have hlen : (sliceL (g0 + 1) j l).length =
              min (j - (g0 + 1)) (l.length - (g0 + 1)) := by simp [sliceL]
          intro hnil
          rw [hnil] at hlen
          simp only [List.length_nil] at hlen
          omega

theorem extractShiwanmao_isSome_of_decomp (l : List Char)
    (x y z w : List Char) (hl : l = x ++ "試玩毛".data ++ y ++ '《' :: z ++ '》' :: w)
    (hz : z ≠ []) : (extractShiwanmao l).isSome = true := by
  have hinf : "試玩毛".data <:+: l :=
    ⟨x, y ++ '《' :: z ++ '》' :: w, by rw [hl]; simp [List.append_assoc]⟩
  have hsome := (findSubIdx_isSome_iff "試玩毛".data l).2 hinf
  have hzlen : 1 ≤ z.length := by
    cases z with
    | nil => exact absurd rfl hz
    | cons _ _ => simp
  have h33 : ("試玩毛".data).length = 3 := by decide
  cases h1 : findSubIdx "試玩毛".data l with
  | none => rw [h1] at hsome; simp at hsome
  | some s =>
    have hsx : s ≤ x.length := by
      by_contra hgt
      have hmin := findSubIdx_min _ l s h1 x.length (by omega)
      have hst : startsWithL (l.drop x.length) "試玩毛".data = true := by
        have hx : l = x ++ ("試玩毛".data ++ (y ++ '《' :: z ++ '》' :: w)) := by
          rw [hl]
          simp [List.append_assoc]
        rw [startsWithL_iff, hx, List.drop_left]
        exact ⟨y ++ '《' :: z ++ '》' :: w, rfl⟩
      rw [hst] at hmin
      exact absurd hmin (by simp)
    have hG : l[(x.length + 3 + y.length)]? = some '《' := by
      rw [hl]
      have hassoc : x ++ "試玩毛".data ++ y ++ '《' :: z ++ '》' :: w =
          (x ++ "試玩毛".data ++ y) ++ ('《' :: (z ++ '》' :: w)) := by
        simp [List.append_assoc]
      have hlen : (x ++ "試玩毛".data ++ y).length = x.length + 3 + y.length := by
        simp only [List.length_append, h33]
      rw [hassoc, List.getElem?_append_right (by omega), hlen]
      simp
    cases h2 : findCharFrom '《' (s + 3) l with
    | none =>
      exfalso
      exact findCharFrom_none_spec '《' _ l h2 (x.length + 3 + y.length) (by omega) hG
    | some g0 =>
      have hg0le : g0 ≤ x.length + 3 + y.length := by
        by_contra hgt
        exact findCharFrom_min '《' (s + 3) l g0 h2 (x.length + 3 + y.length)
          (by omega) (by omega) hG
      have hJ : l[(x.length + 3 + y.length + 1 + z.length)]? = some '》' := by
        rw [hl]
        have hassoc : x ++ "試玩毛".data ++ y ++ '《' :: z ++ '》' :: w =
            (x ++ "試玩毛".data ++ y ++ '《' :: z) ++ ('》' :: w) := by
          simp [List.append_assoc]
        have hlen : (x ++ "試玩毛".data ++ y ++ '《' :: z).length =
            x.length + 3 + y.length + 1 + z.length := by
          simp only [List.length_append, List.length_cons, h33]
          omega
        rw [hassoc, List.getElem?_append_right (by omega), hlen]
        simp
      cases h3 : findCharFrom '》' (g0 + 2) l with
      | none =>
        exfalso
        exact findCharFrom_none_spec '》' _ l h3 (x.length + 3 + y.length + 1 + z.length)
          (by omega) hJ
      | some j =>
        simp [extractShiwanmao, h1, h2, h3]

/-! ## normalize_title is idempotent on whitespace-free input -/

theorem charOfNat_toNat (n : Nat) (h : Nat.isValidChar n) : (Char.ofNat n).toNat = n := by
  unfold Char.ofNat
  rw [dif_pos h]
  rfl

theorem toLower_eq_space {c : Char} (h : c.toLower = ' ') : c = ' ' := by
  by_cases hc : c.toNat ≥ 65 ∧ c.toNat ≤ 90
  · exfalso
    have h2 : c.toLower = Char.ofNat (c.toNat + 32) := by
      show (let n := c.toNat; if n ≥ 65 ∧ n ≤ 90 then Char.ofNat (n + 32) else c) = _
      simp only
      rw [if_pos hc]
    rw [h2] at h
    have h3 := congrArg Char.toNat h
    have hv : Nat.isValidChar (c.toNat + 32) := Or.inl (by omega)
    rw [charOfNat_toNat _ hv] at h3
    have hsp : (' ' : Char).toNat = 32 := by decide
    rw [hsp] at h3
    omega
  · have h2 : c.toLower = c := by
      show (let n := c.toNat; if n ≥ 65 ∧ n ≤ 90 then Char.ofNat (n + 32) else c) = _
      simp only
      rw [if_neg hc]
    rw [← h2]
    exact h

theorem extractCore_none_parts (l : List Char) (h : extractCore l = none) :
    extractWrapped "試映劇場".data l = none ∧ extractWrapped "試音片".data l = none ∧
    extractWrapped "試乜都得".data l = none ∧ extractShiwanmao l = none ∧
    extractWrapped [] l = none := by
  unfold extractCore at h
  split at h
  · simp at h
  · next h1 =>
    split at h
    · simp at h
    · next h2 =>
      split at h
      · simp at h
      · next h3 =>
        split at h
        · simp at h
        · next h4 => exact ⟨h1, h2, h3, h4, h⟩

theorem extractCore_none_of_parts (l : List Char)
    (h1 : extractWrapped "試映劇場".data l = none)
    (h2 : extractWrapped "試音片".data l = none)
    (h3 : extractWrapped "試乜都得".data l = none)
    (h4 : extractShiwanmao l = none)
    (h5 : extractWrapped [] l = none) : extractCore l = none := by
  unfold extractCore
  rw [h1, h2, h3, h4, h5]

theorem extractWrapped_none_of_inf (label l m : List Char) (hm : m <:+: l)
    (h : extractWrapped label l = none) : extractWrapped label m = none := by
  cases he : extractWrapped label m with
  | none => rfl
  | some g =>
    exfalso
    obtain ⟨x, y, z, hdec, hy⟩ := extractWrapped_decomp label m g he
    obtain ⟨p, q, hl⟩ := hm
    have hsome := extractWrapped_isSome_of_decomp label l (p ++ x) y (z ++ q)
      (by rw [← hl, hdec]; simp [List.append_assoc]) hy
    rw [h] at hsome
    simp at hsome

theorem extractShiwanmao_none_of_inf (l m : List Char) (hm : m <:+: l)
    (h : extractShiwanmao l = none) : extractShiwanmao m = none := by
  cases he : extractShiwanmao m with
  | none => rfl
  | some g =>
    exfalso
    obtain ⟨x, y, z, w, hdec, hz⟩ := extractShiwanmao_decomp m g he
    obtain ⟨p, q, hl⟩ := hm
    have hsome := extractShiwanmao_isSome_of_decomp l (p ++ x) y z (w ++ q)
      (by rw [← hl, hdec]; simp [List.append_assoc]) hz
    rw [h] at hsome
    simp at hsome

theorem extractCore_getD_subset (l : List Char) : (extractCore l).getD l ⊆ l := by
  cases h : extractCore l with
  | none => simp
  | some g => simpa using extractCore_subset l g h

theorem normalize_titleL_eval (l : List Char) (hne : ¬ l = []) :
    normalize_titleL l =
      pystripL (stripChars stripSetChars (collapseWs
        (cutBeforeSubCI "- youtube".data
          (cutBeforeSub "- YouTube".data
            (((extractCore (pystripL l)).getD (pystripL l)).takeWhile notPipe))))) := by
  unfold normalize_titleL
  rw [if_neg hne]

theorem normalize_wsfree_tail (n4 : List Char) (h : ∀ c ∈ n4, pyIsSpace c = false) :
    pystripL (stripChars stripSetChars (collapseWs n4)) = stripChars stripSetChars n4 := by
  rw [collapseWs_eq_self n4 h,
    pystripL_eq_self _ (fun c hc => h c (stripChars_subset _ _ hc))]

theorem normalize_wsfree (l : List Char) (hws : ∀ c ∈ l, pyIsSpace c = false)
    (hne : ¬ l = []) :
    normalize_titleL l =
      stripChars stripSetChars
        (cutBeforeSubCI "- youtube".data
          (cutBeforeSub "- YouTube".data
            (((extractCore l).getD l).takeWhile notPipe))) := by
  rw [normalize_titleL_eval l hne, pystripL_eq_self l hws]
  refine normalize_wsfree_tail _ (fun c hc => hws c ?_)
  exact extractCore_getD_subset l ((List.takeWhile_prefix notPipe).subset
    (cutBeforeSub_subset _ _ (cutBeforeSubCI_subset _ _ hc)))

theorem stripped_no_close (g n4 : List Char) (hg : '》' ∉ g.drop 1)
    (hpre : n4 <+: g.takeWhile notPipe) :
    '》' ∉ stripChars stripSetChars n4 := by
  intro hmem
  have hpre1 : stripChars stripSetChars n4 <+: lstripSet stripSetChars n4 :=
    rstripSet_pre _ _
  have hsuf : lstripSet stripSetChars n4 <:+ n4 := List.dropWhile_suffix _
  have hinf : stripChars stripSetChars n4 <:+: g :=
    (hpre1.isInfix.trans hsuf.isInfix).trans
      ((hpre.trans (List.takeWhile_prefix _)).isInfix)
  obtain ⟨u, v, huv⟩ := hinf
  obtain ⟨o1, o2, ho⟩ := List.append_of_mem hmem
  have hgeq : g = (u ++ o1) ++ '》' :: (o2 ++ v) := by
    rw [← huv, ho]
    simp [List.append_assoc]
  cases hcase : u ++ o1 with
  | nil =>
    obtain ⟨hu, ho1⟩ := List.append_eq_nil.1 hcase
    subst hu
    subst ho1
    simp only [List.nil_append] at ho
    rw [ho] at hpre1
    cases hls : lstripSet stripSetChars n4 with
    | nil =>
      rw [hls] at hpre1
      exact absurd (List.prefix_nil.1 hpre1) (by simp)
    | cons d rest =>
      rw [hls] at hpre1
      rw [List.cons_prefix_cons] at hpre1
      obtain ⟨hd, _⟩ := hpre1
      have hls2 : n4.dropWhile (fun c => stripSetChars.contains c) = d :: rest := hls
      have hdf := dropWhile_head_false n4 d rest hls2
      rw [← hd] at hdf
      exact absurd hdf (by decide)
  | cons a rest =>
    apply hg
    rw [hgeq, hcase]
    simp

theorem normalize_titleL_fixed (m : List Char)
    (hws : ∀ c ∈ m, pyIsSpace c = false)
    (hpipe : ∀ c ∈ m, notPipe c = true)
    (hE : extractCore m = none)
    (hsc : stripChars stripSetChars m = m) :
    normalize_titleL m = m := by
  by_cases hne : m = []
  · subst hne; rfl
  · have hyt : findSubIdx "- YouTube".data m = none := by
      cases hf : findSubIdx "- YouTube".data m with
      | none => rfl
      | some i =>
        exfalso
        have hinf := (findSubIdx_isSome_iff "- YouTube".data m).1 (by rw [hf]; rfl)
        have hsp : ' ' ∈ m := hinf.subset (by decide)
        exact absurd (hws ' ' hsp) (by decide)
    have hytci : findSubIdxCI "- youtube".data m = none := by
      cases hf : findSubIdxCI "- youtube".data m with
      | none => rfl
      | some i =>
        exfalso
        have hinf := (findSubIdxCI_isSome_iff "- youtube".data m).1 (by rw [hf]; rfl)
        have hsp : ' ' ∈ toLowerL m := hinf.subset (by decide)
        have hsp2 : ' ' ∈ m.map Char.toLower := hsp
        obtain ⟨c, hc, hceq⟩ := List.mem_map.1 hsp2
        have hce := toLower_eq_space hceq
        subst hce
        exact absurd (hws _ hc) (by decide)
    rw [normalize_titleL_eval m hne, pystripL_eq_self m hws, hE]
    simp only [Option.getD_none]
    rw [takeWhile_eq_self_of_all m hpipe, cutBeforeSub_eq_self _ _ hyt,
      cutBeforeSubCI_eq_self _ _ hytci, collapseWs_eq_self m hws, hsc,
      pystripL_eq_self m hws]

theorem normalize_titleL_idem_wsfree (l : List Char)
    (hws : ∀ c ∈ l, pyIsSpace c = false) :
    normalize_titleL (normalize_titleL l) = normalize_titleL l := by
  by_cases hne : l = []
  · subst hne; rfl
  · have h1 := normalize_wsfree l hws hne
    have hsub2 : ∀ c ∈ stripChars stripSetChars
        (cutBeforeSubCI "- youtube".data
          (cutBeforeSub "- YouTube".data (((extractCore l).getD l).takeWhile notPipe))),
        c ∈ ((extractCore l).getD l).takeWhile notPipe := by
      intro c hc
      exact cutBeforeSub_subset _ _ (cutBeforeSubCI_subset _ _ (stripChars_subset _ _ hc))
    rw [h1]
    apply normalize_titleL_fixed
    · intro c hc
      exact hws c (extractCore_getD_subset l
        ((List.takeWhile_prefix notPipe).subset (hsub2 c hc)))
    · intro c hc
      exact List.mem_takeWhile_imp (hsub2 c hc)
    · cases hE : extractCore l with
      | some g =>
        have hclose := extractCore_group_no_close l g hE
        apply extractCore_none_of_no_close
        simp only [Option.getD_some]
        exact stripped_no_close g _ hclose
          ((cutBeforeSubCI_pre _ _).trans (cutBeforeSub_pre _ _))
      | none =>
        obtain ⟨p1, p2, p3, p4, p5⟩ := extractCore_none_parts l hE
        simp only [Option.getD_none]
        have hinf : stripChars stripSetChars
            (cutBeforeSubCI "- youtube".data
              (cutBeforeSub "- YouTube".data (l.takeWhile notPipe))) <:+: l :=
          (stripChars_inf _ _).trans
            (((cutBeforeSubCI_pre _ _).trans ((cutBeforeSub_pre _ _).trans
              (List.takeWhile_prefix _))).isInfix)
        exact extractCore_none_of_parts _
          (extractWrapped_none_of_inf _ l _ hinf p1)
          (extractWrapped_none_of_inf _ l _ hinf p2)
          (extractWrapped_none_of_inf _ l _ hinf p3)
          (extractShiwanmao_none_of_inf l _ hinf p4)
          (extractWrapped_none_of_inf _ l _ hinf p5)
    · exact stripChars_idem _ _

/-- C2 (amended): the normalizers are not idempotent in general (see
`C2_counterexample`), but `normalize_title` is idempotent on every
whitespace-free input, and both normalizers never lengthen their input. -/
theorem C2_amended :
    (∀ l : List Char, (∀ c ∈ l, pyIsSpace c = false) →
      normalize_titleL (normalize_titleL l) = normalize_titleL l) ∧
    (∀ t : List Char, (clean_titleL t).length ≤ t.length) ∧
    (∀ t : List Char, (normalize_titleL t).length ≤ t.length) :=
  ⟨normalize_titleL_idem_wsfree, length_clean_titleL_le, length_normalize_titleL_le⟩

/-- C2 witness: idempotence at a concrete whitespace-free title. -/
theorem C2_witness :
    normalize_titleL (normalize_titleL "試玩毛EP06《哈利波腎》".data) =
      normalize_titleL "試玩毛EP06《哈利波腎》".data :=
  C2_amended.1 "試玩毛EP06《哈利波腎》".data (by decide)
